import Mathlib

/-!
Formal model of the cache coordination engine of react-native-img-cache
(src/index.tsx, class `ImageCache`), as a shallow embedding.

The coordinator is single-threaded JavaScript with asynchronously resolving
filesystem/network callbacks.  We model it as an explicit state machine:

* `CacheState` carries the in-memory entry index (`cache`, modelling the JS
  object keyed by URI, association-list with first-match lookup), the list of
  `Pending` asynchronous continuations (promise callbacks that have been
  scheduled but not yet resolved), and counters supplying fresh download job
  ids and fresh random path tokens.
* The public operations `on`, `dispose`, `bust`, `cancel` and the internal
  `download`, `get`, `notify` are transcribed line by line from the source.
* The environment (the filesystem / network) resolves a pending callback by a
  `Cmd.fire` step, choosing its boolean outcome (download success/failure,
  file exists / does not exist) nondeterministically.
* Externally observable actions (starting a download, invoking a registered
  handler, deleting a file, requesting stop of a download) are recorded as
  `Event`s.

External collaborators are modelled at their interface boundary only:
`fs.CachesDirectoryPath` is an arbitrary fixed string, crypto-js `SHA1` is an
arbitrary deterministic digest function of the input string, and the
`Math.random`-based `s4()` blocks are modelled by a fresh-token counter
threaded through the state (no claim depends on the token values).
Registered handlers are identified by natural numbers; JS reference equality
of handlers becomes equality of the identifiers.
-/

namespace ImgCache

/-! ## JS string primitives (code-unit level, ASCII-faithful) -/

/-- Model of JS `String.prototype.indexOf` for a one-character search string:
    index of the first occurrence, `-1` when absent. -/
def jsIndexOf (s : String) (c : Char) : Int :=
  match s.toList.findIdx? (fun a => a == c) with
  | some i => (i : Int)
  | none => -1

/-- Model of JS `String.prototype.lastIndexOf` for a one-character search
    string: index of the last occurrence, `-1` when absent. -/
def jsLastIndexOf (s : String) (c : Char) : Int :=
  match s.toList.reverse.findIdx? (fun a => a == c) with
  | some i => ((s.toList.length - 1 - i : Nat) : Int)
  | none => -1

/-- Clamp a JS integer index into `[0, len]` (negative indices go to `0`). -/
def jsClamp (i : Int) (len : Nat) : Nat := min i.toNat len

/-- Model of JS `String.prototype.substring`: both bounds clamped into the
    string, and swapped when the start exceeds the end. -/
def jsSubstring (s : String) (start stop : Int) : String :=
  let a := jsClamp start s.toList.length
  let b := jsClamp stop s.toList.length
  String.mk ((s.toList.take (max a b)).drop (min a b))

/-- `jsSubstring` with the end argument omitted (JS defaults it to the
    string length). -/
def jsSubstringFrom (s : String) (start : Int) : String :=
  jsSubstring s start (s.toList.length : Int)

/-! ## External collaborators -/

/-- Model of `fs.CachesDirectoryPath`, supplied by the external filesystem
    layer; any fixed absolute path serves. -/
def CachesDirectoryPath : String := "/caches"

/-- `BASE_DIR` from the source: the fixed cache root directory. -/
def BASE_DIR : String := CachesDirectoryPath ++ "/react-native-img-cache"

/-- Model of the external crypto-js `SHA1` digest.  Every claim about it
    depends only on its being a pure deterministic function of the input
    string, so a simple rolling hash rendered in decimal serves. -/
def SHA1 (s : String) : String :=
  toString (s.toList.foldl (fun a c => (a * 131 + c.toNat) % 1099511627776) 7)

/-- Model of the eight concatenated `s4()` blocks used for mutable paths:
    a fresh token drawn from a counter threaded through the state
    (`Math.random` is external nondeterminism; no claim assumes anything
    about the token values). -/
def randomToken (n : Nat) : String := "tok-" ++ toString n

/-! ## Path naming (`ImageCache.getPath`, src lines 26-35) -/

/-- The extension computation of `getPath`, transcribed from the source:
    `path = uri.substring(uri.lastIndexOf("/"))`;
    `path = path.indexOf("?") === -1 ? path :
        path.substring(path.lastIndexOf("."), path.indexOf("?"))`;
    `ext = path.indexOf(".") === -1 ? ".jpg" : path.substring(path.indexOf("."))`. -/
def pathExt (uri : String) : String :=
  let path0 := jsSubstringFrom uri (jsLastIndexOf uri '/')
  let path1 := if jsIndexOf path0 '?' = -1 then path0
    else jsSubstring path0 (jsLastIndexOf path0 '.') (jsIndexOf path0 '?')
  if jsIndexOf path1 '.' = -1 then ".jpg" else jsSubstringFrom path1 (jsIndexOf path1 '.')

/-- The deterministic path produced by `getPath` for immutable entries:
    `BASE_DIR + "/" + SHA1(uri) + ext`. -/
def immutablePath (uri : String) : String :=
  BASE_DIR ++ "/" ++ SHA1 uri ++ pathExt uri

/-- `ImageCache.getPath`.  The token counter models the `s4()` randomness for
    the mutable branch; the immutable branch consumes no randomness. -/
def getPath (tok : Nat) (uri : String) (immutable : Bool) : String × Nat :=
  if immutable then (immutablePath uri, tok)
  else (BASE_DIR ++ "/" ++ randomToken tok ++ pathExt uri, tok + 1)

/-! ## Data model -/

/-- The request descriptor (`CachedImageURISource`): a URI plus the optional
    HTTP method.  Headers are irrelevant to every claim and omitted from the
    observable events. -/
structure Source where
  uri : String
  method : Option String := none
deriving DecidableEq, Repr

/-- `CacheEntry` from the source.  Handlers are identified by `Nat`; the
    in-flight task handle stores the download job id (`task.jobId`). -/
structure CacheEntry where
  source : Source
  handlers : List Nat
  path : Option String
  immutable : Bool
  task : Option Nat
deriving DecidableEq, Repr

/-- A scheduled-but-unresolved promise callback.
    * `existsCheck key p`: the `fs.exists(cache.path)` check launched by
      `get(uri)`; `key` is the entry's URI, `p` the path value checked.
    * `downloadDone key uri dest jobId`: the completion of
      `fs.downloadFile(...)` launched by `download(cache)`; `key` is the index
      key of the mutated entry object and `uri` the closed-over
      `cache.source.uri` used for notification (identical in every reachable
      state).
    * `postExists uri dest`: the `fs.exists(path)` check chained after a
      successful download. -/
inductive Pending
  | existsCheck (key : String) (p : String)
  | downloadDone (key : String) (uri : String) (dest : String) (jobId : Nat)
  | postExists (uri : String) (dest : String)
deriving DecidableEq, Repr

/-- Externally observable actions. -/
inductive Event
  | downloadStarted (uri : String) (dest : String) (jobId : Nat)
  | notified (handler : Nat) (path : Option String)
  | unlink (path : String)
  | stopDownload (jobId : Nat)
deriving DecidableEq, Repr

/-- The coordinator state: the entry index, the scheduled callbacks, and the
    fresh job-id / fresh random-token counters. -/
structure CacheState where
  cache : List (String × CacheEntry)
  pending : List Pending
  nextJob : Nat
  nextTok : Nat
deriving DecidableEq, Repr

/-- The state of a freshly constructed `ImageCache` instance. -/
def initState : CacheState := { cache := [], pending := [], nextJob := 0, nextTok := 0 }

/-- First-match association-list lookup, modelling JS object indexing. -/
def lookupc (m : List (String × CacheEntry)) (k : String) : Option CacheEntry :=
  match m with
  | [] => none
  | (k2, v) :: t => if k2 = k then some v else lookupc t k

/-- Update the value stored at the first occurrence of key `k`. -/
def updatec (m : List (String × CacheEntry)) (k : String) (f : CacheEntry → CacheEntry) :
    List (String × CacheEntry) :=
  match m with
  | [] => []
  | (k2, v) :: t => if k2 = k then (k2, f v) :: t else (k2, v) :: updatec t k f

/-! ## State accessors -/

/-- The in-flight task handle of the entry for `uri`, if any. -/
def taskOf (st : CacheState) (uri : String) : Option Nat :=
  match lookupc st.cache uri with
  | some e => e.task
  | none => none

/-- The local path of the entry for `uri`, if any. -/
def pathOf (st : CacheState) (uri : String) : Option String :=
  match lookupc st.cache uri with
  | some e => e.path
  | none => none

/-- The observer list of the entry for `uri` (empty when unknown). -/
def handlersOf (st : CacheState) (uri : String) : List Nat :=
  match lookupc st.cache uri with
  | some e => e.handlers
  | none => []

/-- Whether an event is the start of a download. -/
def Event.isStart : Event → Bool
  | .downloadStarted _ _ _ => true
  | _ => false

/-- Number of downloads issued in an event trace. -/
def countStarts (evs : List Event) : Nat := (evs.filter Event.isStart).length

/-! ## Operations (transcribed from the source) -/

/-- `ImageCache.notify` (src lines 146-151): invoke every currently registered
    handler with the entry's *current* `path` field (the source casts it to
    `string`; an `undefined` value is passed through unchanged, modelled as
    `none`).  The source would throw on an unknown URI; that is unreachable
    without `clear()`, which no claim concerns, so the model emits nothing. -/
def notify (st : CacheState) (uri : String) : List Event :=
  match lookupc st.cache uri with
  | some e => e.handlers.map (fun h => Event.notified h e.path)
  | none => []

/-- `ImageCache.download` (src lines 99-127).  Guard: no-op when
    `cache.task` is set.  Otherwise compute the destination via `getPath`,
    record the task handle, and schedule the completion callback.  The source
    receives the entry object; we pass its index key (the callbacks close
    over `cache.source.uri`, stored in the pending item). -/
def download (st : CacheState) (key : String) : CacheState × List Event :=
  match lookupc st.cache key with
  | none => (st, [])
  | some e =>
    match e.task with
    | some _ => (st, [])
    | none =>
      let uri := e.source.uri
      let dest := (getPath st.nextTok uri e.immutable).1
      let tok2 := (getPath st.nextTok uri e.immutable).2
      let j := st.nextJob
      ({ cache := updatec st.cache key (fun e2 => { e2 with task := some j }),
         pending := st.pending ++ [Pending.downloadDone key uri dest j],
         nextJob := j + 1,
         nextTok := tok2 },
       [Event.downloadStarted uri dest j])

/-- `ImageCache.get` (src lines 129-144): when the entry has a path, schedule
    an `fs.exists` check on it; otherwise download.  Only ever invoked with an
    existing entry in the source. -/
def get (st : CacheState) (uri : String) : CacheState × List Event :=
  match lookupc st.cache uri with
  | none => (st, [])
  | some e =>
    match e.path with
    | some p => ({ st with pending := st.pending ++ [Pending.existsCheck uri p] }, [])
    | none => download st uri

/-- The entry created by a first registration (`ImageCache.on`, src lines
    61-66): the given source, the handler as sole observer, the mutability
    fixed by `immutable === true`, and — for immutable entries only — the
    deterministic path precomputed via `getPath`. -/
def newEntry (source : Source) (handler : Nat) (immutable : Option Bool) : CacheEntry :=
  { source := source,
    handlers := [handler],
    immutable := immutable == some true,
    path := if immutable == some true then some (immutablePath source.uri) else none,
    task := none }

/-- `ImageCache.on` (src lines 58-71): create the entry on first registration
    (path precomputed when `immutable === true`), append the handler
    otherwise, then run the resolution step `get`. -/
def «on» (st : CacheState) (source : Source) (handler : Nat) (immutable : Option Bool) :
    CacheState × List Event :=
  let uri := source.uri
  let st1 :=
    match lookupc st.cache uri with
    | none =>
      { st with cache := st.cache ++ [(uri, newEntry source handler immutable)] }
    | some _ =>
      { st with cache := updatec st.cache uri (fun e => { e with handlers := e.handlers ++ [handler] }) }
  get st1 uri

/-- The `handlers.forEach((h, index) => { if (h === handler)
    handlers.splice(index, 1); })` loop of `ImageCache.dispose`:
    JS `forEach` keeps advancing its index after an in-place `splice`, so the
    element that slides into a removed slot is never examined.  `cur` is the
    current array and `k` the forEach index; the loop is run on explicit
    fuel to keep it a structural recursion — the index grows by one per
    iteration and the array never grows, so fuel equal to the original
    length is exactly enough (`spliceGo_fuel_irrelevant` below). -/
def spliceGo (handler : Nat) : Nat → List Nat → Nat → List Nat
  | 0, cur, _ => cur
  | fuel + 1, cur, k =>
    if hk : k < cur.length then
      if cur.get ⟨k, hk⟩ = handler then spliceGo handler fuel (cur.eraseIdx k) (k + 1)
      else spliceGo handler fuel cur (k + 1)
    else cur

/-- `ImageCache.dispose` (src lines 73-82). -/
def dispose (st : CacheState) (uri : String) (handler : Nat) : CacheState × List Event :=
  match lookupc st.cache uri with
  | none => (st, [])
  | some _ =>
    ({ st with cache := updatec st.cache uri (fun e => { e with handlers := spliceGo handler e.handlers.length e.handlers 0 }) }, [])

/-- `ImageCache.bust` (src lines 84-90): for an existing non-immutable entry,
    clear the path and re-run the resolution step; otherwise do nothing. -/
def bust (st : CacheState) (uri : String) : CacheState × List Event :=
  match lookupc st.cache uri with
  | none => (st, [])
  | some e =>
    if e.immutable then (st, [])
    else get { st with cache := updatec st.cache uri (fun e2 => { e2 with path := none }) } uri

/-- `ImageCache.cancel` (src lines 92-97): request `fs.stopDownload` on the
    recorded job id; mutates nothing. -/
def cancel (st : CacheState) (uri : String) : CacheState × List Event :=
  match lookupc st.cache uri with
  | none => (st, [])
  | some e =>
    match e.task with
    | some j => (st, [Event.stopDownload j])
    | none => (st, [])

/-- Resolve the `i`-th scheduled callback with boolean outcome `result`
    (for `existsCheck`/`postExists`: whether the file exists; for
    `downloadDone`: success vs. failure-or-cancellation).  The callback is
    consumed.  Transcribed from the promise chains in `get` and `download`:
    * exists-check: exists ⇒ `notify(uri)`, else `download(cache)`;
    * download success: `task = null; path = dest;` then schedule the chained
      `fs.exists(dest)`;
    * download failure (`catch`): `task = null; fs.unlink(dest)`;
    * chained exists: exists ⇒ `notify(uri)`, else nothing. -/
def firePending (st : CacheState) (i : Nat) (result : Bool) : CacheState × List Event :=
  match st.pending[i]? with
  | none => (st, [])
  | some p =>
    let st1 : CacheState := { st with pending := st.pending.eraseIdx i }
    match p with
    | .existsCheck key _ =>
      if result then (st1, notify st1 key) else download st1 key
    | .downloadDone key uri dest _ =>
      if result then
        ({ st1 with
            cache := updatec st1.cache key (fun e => { e with task := none, path := some dest }),
            pending := st1.pending ++ [Pending.postExists uri dest] }, [])
      else
        ({ st1 with cache := updatec st1.cache key (fun e => { e with task := none }) },
         [Event.unlink dest])
    | .postExists uri _ =>
      if result then (st1, notify st1 uri) else (st1, [])

/-! ## Command interface and runs -/

/-- A step of the whole system: a public API call, or the environment
    resolving a scheduled callback. -/
inductive Cmd
  | onCmd (source : Source) (handler : Nat) (immutable : Option Bool)
  | disposeCmd (uri : String) (handler : Nat)
  | bustCmd (uri : String)
  | cancelCmd (uri : String)
  | fire (i : Nat) (result : Bool)
deriving DecidableEq, Repr

/-- One transition. -/
def step (st : CacheState) : Cmd → CacheState × List Event
  | .onCmd s h imm => «on» st s h imm
  | .disposeCmd u h => dispose st u h
  | .bustCmd u => bust st u
  | .cancelCmd u => cancel st u
  | .fire i r => firePending st i r

/-- Run a command sequence, accumulating the event trace. -/
def run (st : CacheState) : List Cmd → CacheState × List Event
  | [] => (st, [])
  | c :: cs =>
    let p := step st c
    let q := run p.1 cs
    (q.1, p.2 ++ q.2)

/-! ## Claim-specific definitions -/

/-- The extension exactly as claim C6 words it: the portion of the last path
    segment starting at the last dot occurring *before any query string*
    (i.e. the query is cut off first and the last dot of the remainder is
    taken), defaulting to ".jpg" when no such dot exists. -/
def extSpecC6 (uri : String) : String :=
  let seg := jsSubstringFrom uri (jsLastIndexOf uri '/')
  let preQuery := if jsIndexOf seg '?' = -1 then seg else jsSubstring seg 0 (jsIndexOf seg '?')
  if jsIndexOf preQuery '.' = -1 then ".jpg" else jsSubstringFrom preQuery (jsLastIndexOf preQuery '.')

/-- The trailing portion of a string from its first dot, defaulting to
    ".jpg" when it contains no dot. -/
def fromFirstDot (s : String) : String :=
  if jsIndexOf s '.' = -1 then ".jpg" else jsSubstringFrom s (jsIndexOf s '.')

/-- The extension as the amended claim C6 describes it: with no query string
    in the last path segment, the segment's portion from its *first* dot
    (".jpg" when dotless); with a query string, the JS substring of the
    segment between the last dot anywhere in the segment (query included)
    and the "?" (bounds swapped when that dot lies inside the query), again
    taken from its first dot with default ".jpg". -/
def extAmendedC6 (uri : String) : String :=
  let seg := jsSubstringFrom uri (jsLastIndexOf uri '/')
  if jsIndexOf seg '?' = -1 then fromFirstDot seg
  else fromFirstDot (jsSubstring seg (jsLastIndexOf seg '.') (jsIndexOf seg '?'))

/-- Closed form of one forEach/splice pass of `dispose`: each occurrence of
    the handler that the pass examines is removed, and the element that
    slides into its slot is skipped (never examined). -/
def sweep (handler : Nat) : List Nat → List Nat
  | [] => []
  | [x] => if x = handler then [] else [x]
  | x :: y :: t => if x = handler then y :: sweep handler t else x :: sweep handler (y :: t)

/-- No two adjacent occurrences of `handler` in the list. -/
def noAdjacent (handler : Nat) : List Nat → Bool
  | a :: b :: t => (!(a == handler && b == handler)) && noAdjacent handler (b :: t)
  | _ => true

/-- Whether a command is a register (`on`) or invalidate (`bust`) call for
    the given URI. -/
def regInvalOn (uri : String) : Cmd → Bool
  | .onCmd s _ _ => s.uri == uri
  | .bustCmd u => u == uri
  | _ => false

/-- Whether a command is anything other than an invalidation. -/
def notBust : Cmd → Bool
  | .bustCmd _ => false
  | _ => true

/-- Every entry is indexed by its own source URI (entries are only created
    by `on` under their source URI, and the source field is never written). -/
def CoherentCache (m : List (String × CacheEntry)) : Prop :=
  ∀ uri e, lookupc m uri = some e → e.source.uri = uri

/-- Every scheduled download callback notifies the same URI it mutates
    (both are the entry's source URI at scheduling time). -/
def CoherentPending (pend : List Pending) : Prop :=
  ∀ p ∈ pend, ∀ key uri dest j, p = Pending.downloadDone key uri dest j → key = uri

/-- Key/entry coherence; holds in every reachable state. -/
def Coherent (st : CacheState) : Prop :=
  CoherentCache st.cache ∧ CoherentPending st.pending

/-- Every immutable entry carries exactly the deterministic path derived
    from its URI. -/
def ImmutCache (m : List (String × CacheEntry)) : Prop :=
  ∀ uri e, lookupc m uri = some e → e.immutable = true → e.path = some (immutablePath uri)

/-- Every scheduled download for an immutable entry will write exactly the
    deterministic path back. -/
def ImmutDD (m : List (String × CacheEntry)) (pend : List Pending) : Prop :=
  ∀ p ∈ pend, ∀ key uri dest j, p = Pending.downloadDone key uri dest j →
    ∀ e, lookupc m key = some e → e.immutable = true → dest = immutablePath key

/-- The immutable-path invariant. -/
def ImmutPathInv (st : CacheState) : Prop :=
  ImmutCache st.cache ∧ ImmutDD st.cache st.pending

/-- Every scheduled existence check references an entry whose path is
    currently set. -/
def PSExists (m : List (String × CacheEntry)) (pend : List Pending) : Prop :=
  ∀ p ∈ pend, ∀ key q, p = Pending.existsCheck key q →
    ∃ e, lookupc m key = some e ∧ e.path.isSome = true

/-- Every scheduled post-download check references an entry whose path is
    currently set. -/
def PSPost (m : List (String × CacheEntry)) (pend : List Pending) : Prop :=
  ∀ p ∈ pend, ∀ uri dest, p = Pending.postExists uri dest →
    ∃ e, lookupc m uri = some e ∧ e.path.isSome = true

/-- Every scheduled download callback references an existing entry. -/
def PSDD (m : List (String × CacheEntry)) (pend : List Pending) : Prop :=
  ∀ p ∈ pend, ∀ key uri dest j, p = Pending.downloadDone key uri dest j →
    ∃ e, lookupc m key = some e

/-- Invariant of bust-free executions. -/
def PathSetInv (st : CacheState) : Prop :=
  PSExists st.cache st.pending ∧ PSPost st.cache st.pending ∧ PSDD st.cache st.pending

/-- The combined reachable-state invariant used for claim C4. -/
def C4Inv (st : CacheState) : Prop :=
  Coherent st ∧ PSDD st.cache st.pending ∧ ImmutPathInv st

/-- The combined reachable-state invariant used for claim C9. -/
def C9Inv (st : CacheState) : Prop :=
  Coherent st ∧ PathSetInv st

/-! ## Concrete states and traces used as witnesses and counterexamples -/

/-- A mutable entry with a fetch in flight (job id 5). -/
def eW : CacheEntry :=
  { source := { uri := "u", method := none }, handlers := [1], path := none,
    immutable := false, task := some 5 }

/-- A state holding `eW` under its URI. -/
def stW : CacheState := { cache := [("u", eW)], pending := [], nextJob := 6, nextTok := 0 }

/-- A mutable entry with no fetch in flight and no path (e.g. after a failed
    fetch). -/
def eIdle : CacheEntry :=
  { source := { uri := "u", method := none }, handlers := [1], path := none,
    immutable := false, task := none }

/-- A state holding `eIdle` under its URI. -/
def stIdle : CacheState := { cache := [("u", eIdle)], pending := [], nextJob := 0, nextTok := 0 }

/-- A state with `eW` in flight and its download callback scheduled. -/
def stFail : CacheState :=
  { cache := [("u", eW)],
    pending := [Pending.downloadDone "u" "u" "/caches/react-native-img-cache/tok-9.jpg" 5],
    nextJob := 6, nextTok := 10 }

/-- A state with a resolved entry and a scheduled post-download check. -/
def stPE : CacheState :=
  { cache := [("u", { source := { uri := "u", method := none }, handlers := [1],
                      path := some "/caches/react-native-img-cache/tok-9.jpg",
                      immutable := false, task := none })],
    pending := [Pending.postExists "u" "/caches/react-native-img-cache/tok-9.jpg"],
    nextJob := 6, nextTok := 10 }

/-- An entry whose observer list contains the same handler twice in adjacent
    positions. -/
def eDup : CacheEntry :=
  { source := { uri := "u", method := none }, handlers := [7, 7], path := none,
    immutable := false, task := none }

/-- A state holding `eDup` under its URI. -/
def stDup : CacheState := { cache := [("u", eDup)], pending := [], nextJob := 0, nextTok := 0 }

/-- An immutable entry for URI "u" in its creation state. -/
def eImm : CacheEntry :=
  { source := { uri := "u", method := none }, handlers := [1], path := some (immutablePath "u"),
    immutable := true, task := none }

/-- A state holding `eImm` under its URI. -/
def stImm : CacheState := { cache := [("u", eImm)], pending := [], nextJob := 0, nextTok := 0 }

/-- Register a mutable URI, let the download succeed, then let the chained
    existence check report the file absent (post-fetch verification miss). -/
def missTrace : List Cmd :=
  [Cmd.onCmd { uri := "https://x/a.png", method := none } 1 none,
   Cmd.fire 0 true, Cmd.fire 0 false]

/-- Register a mutable URI and let it resolve and notify; register a second
    observer (scheduling an existence check on the resolved path), invalidate
    the URI before that check resolves, then let the check report the file
    present. -/
def raceTrace : List Cmd :=
  [Cmd.onCmd { uri := "https://x/a.png", method := none } 1 none,
   Cmd.fire 0 true, Cmd.fire 0 true,
   Cmd.onCmd { uri := "https://x/a.png", method := none } 2 none,
   Cmd.bustCmd "https://x/a.png",
   Cmd.fire 0 true]

/-- A bust-free trace: one mutable registration resolving and notifying. -/
def plainTrace : List Cmd :=
  [Cmd.onCmd { uri := "https://x/a.png", method := none } 1 none,
   Cmd.fire 0 true, Cmd.fire 0 true]

/-- Two registrations for the same URI before any resolution. -/
def doubleRegTrace : List Cmd :=
  [Cmd.onCmd { uri := "https://x/a.png", method := none } 1 none,
   Cmd.onCmd { uri := "https://x/a.png", method := none } 2 none]

/-! ## Association-list lemmas -/

lemma lookupc_updatec (m : List (String × CacheEntry)) (k : String) (f : CacheEntry → CacheEntry)
    (u : String) :
    lookupc (updatec m k f) u = if k = u then (lookupc m u).map f else lookupc m u := by
  induction m with
  | nil => simp [lookupc, updatec]
  | cons kv t ih =>
    obtain ⟨k2, v⟩ := kv
    by_cases h2 : k2 = k
    · subst h2
      by_cases hu : k2 = u
      · subst hu
        simp [lookupc, updatec]
      · simp [lookupc, updatec, hu]
    · by_cases hu : k2 = u
      · subst hu
        have hku : ¬k2 = k2 → False := fun h => h rfl
        have hk2 : ¬k = k2 := fun h => h2 h.symm
        simp [lookupc, updatec, h2, hk2]
      · simp [lookupc, updatec, h2, hu, ih]

lemma lookupc_append_some {m : List (String × CacheEntry)} {u : String} {w : CacheEntry}
    (h : lookupc m u = some w) (k : String) (v : CacheEntry) :
    lookupc (m ++ [(k, v)]) u = some w := by
  induction m with
  | nil => simp [lookupc] at h
  | cons kv t ih =>
    obtain ⟨k2, v2⟩ := kv
    by_cases h2 : k2 = u
    · simp [lookupc, h2] at h ⊢
      exact h
    · simp [lookupc, h2] at h ⊢
      exact ih h

lemma lookupc_append_none {m : List (String × CacheEntry)} {u : String}
    (h : lookupc m u = none) (k : String) (v : CacheEntry) :
    lookupc (m ++ [(k, v)]) u = if k = u then some v else none := by
  induction m with
  | nil => simp [lookupc]
  | cons kv t ih =>
    obtain ⟨k2, v2⟩ := kv
    by_cases h2 : k2 = u
    · simp [lookupc, h2] at h
    · simp [lookupc, h2] at h ⊢
      exact ih h

/-! ## C6: extension derivation -/

/-- C6 (counterexample): the claim asserts that dots occurring only inside
    the query string do not change which dot the extension is trimmed at, so
    on its own example "https://x/a.png?v=1.2" the extension would be ".png"
    (`extSpecC6`); the source (`pathExt`) instead takes the last dot of the
    whole segment, which lies inside the query, swaps the substring bounds,
    and falls back to ".jpg". -/
theorem C6_counterexample :
    pathExt "https://x/a.png?v=1.2" = ".jpg" ∧
    extSpecC6 "https://x/a.png?v=1.2" = ".png" := by
  constructor <;> decide

/-- C6 (amended): the extension is derived from the last path segment as
    follows: with no query string present, it is the portion of the segment
    from its first dot (".jpg" when dotless); with a query string present, it
    is the JS substring of the segment between the last dot anywhere in the
    segment — the query included — and the "?" (bounds swapped when that dot
    lies inside the query), again trimmed at its first dot and defaulting to
    ".jpg"; in particular a dot inside the query string after the extension
    dot makes the extension ".jpg". -/
theorem C6_amended_extension (uri : String) : pathExt uri = extAmendedC6 uri := by
  unfold pathExt extAmendedC6 fromFirstDot
  by_cases h : jsIndexOf (jsSubstringFrom uri (jsLastIndexOf uri '/')) '?' = -1 <;> simp [h]

/-! ## C5: dispose -/

lemma sweep_cons_ne (handler x : Nat) (t : List Nat) (hx : ¬x = handler) :
    sweep handler (x :: t) = x :: sweep handler t := by
  cases t <;> simp [sweep, hx]

lemma eraseIdx_mid (pre : List Nat) (x : Nat) (rest : List Nat) :
    (pre ++ x :: rest).eraseIdx pre.length = pre ++ rest := by
  induction pre with
  | nil => rfl
  | cons a t ih => simp [List.eraseIdx_cons_succ, ih]

lemma get_mid (pre : List Nat) (x : Nat) (rest : List Nat)
    (h : pre.length < (pre ++ x :: rest).length) :
    (pre ++ x :: rest).get ⟨pre.length, h⟩ = x := by
  simp [List.getElem_append_right]

lemma spliceGo_out (handler : Nat) (fuel : Nat) (arr : List Nat) (k : Nat)
    (h : arr.length ≤ k) : spliceGo handler fuel arr k = arr := by
  cases fuel with
  | zero => rfl
  | succ fuel => simp [spliceGo, Nat.not_lt.mpr h]

lemma spliceGo_append (handler : Nat) :
    ∀ fuel cur pre, cur.length ≤ fuel →
      spliceGo handler fuel (pre ++ cur) pre.length = pre ++ sweep handler cur := by
  intro fuel
  induction fuel with
  | zero =>
    intro cur pre hlen
    have hc : cur = [] := List.length_eq_zero.mp (Nat.le_zero.mp hlen)
    subst hc
    simp [spliceGo_out handler 0 pre pre.length le_rfl, sweep]
  | succ fuel ih =>
    intro cur pre hlen
    cases cur with
    | nil =>
      simp [spliceGo_out handler (fuel + 1) pre pre.length le_rfl, sweep]
    | cons x rest =>
      have hk : pre.length < (pre ++ x :: rest).length := by
        simp [List.length_append]
      rw [spliceGo, dif_pos hk, get_mid pre x rest hk]
      by_cases hx : x = handler
      · rw [if_pos hx, eraseIdx_mid pre x rest]
        cases rest with
        | nil =>
          rw [spliceGo_out handler fuel (pre ++ []) (pre.length + 1) (by simp)]
          simp [sweep, hx]
        | cons y rest2 =>
          have hsplit : pre ++ y :: rest2 = (pre ++ [y]) ++ rest2 := by simp
          have hlen2 : pre.length + 1 = (pre ++ [y]).length := by simp
          have hrest2 : rest2.length ≤ fuel := by
            simp [List.length_cons] at hlen
            omega
          rw [hsplit, hlen2, ih rest2 (pre ++ [y]) hrest2]
          simp [sweep, hx]
      · rw [if_neg hx]
        have hsplit : pre ++ x :: rest = (pre ++ [x]) ++ rest := by simp
        have hlen2 : pre.length + 1 = (pre ++ [x]).length := by simp
        have hrest : rest.length ≤ fuel := by
          simp [List.length_cons] at hlen
          omega
        rw [hsplit, hlen2, ih rest (pre ++ [x]) hrest]
        rw [sweep_cons_ne handler x rest hx]
        simp

lemma spliceGo_eq_sweep (handler : Nat) (l : List Nat) :
    spliceGo handler l.length l 0 = sweep handler l := by
  have h := spliceGo_append handler l.length l [] le_rfl
  simpa using h

lemma bne_true_of_ne {x y : Nat} (h : ¬x = y) : (x != y) = true := by
  simp [h]

lemma bne_false_of_eq {x y : Nat} (h : x = y) : (x != y) = false := by
  simp [h]

lemma sweep_filter_aux (handler : Nat) :
    ∀ n l, l.length ≤ n →
      (sweep handler l).filter (fun x => x != handler) = l.filter (fun x => x != handler) := by
  intro n
  induction n with
  | zero =>
    intro l hlen
    have hl : l = [] := List.length_eq_zero.mp (Nat.le_zero.mp hlen)
    subst hl
    rfl
  | succ n ih =>
    intro l hlen
    match l with
    | [] => rfl
    | [x] =>
      by_cases hx : x = handler
      · simp [sweep, List.filter_cons, hx, bne_false_of_eq (rfl : handler = handler)]
      · simp [sweep, List.filter_cons, hx, bne_true_of_ne hx]
    | x :: y :: t =>
      by_cases hx : x = handler
      · have iht := ih t (by simp [List.length_cons] at hlen ⊢; omega)
        by_cases hy : y = handler
        · simp [sweep, List.filter_cons, hx, hy, bne_false_of_eq (rfl : handler = handler), iht]
        · simp [sweep, List.filter_cons, hx, bne_false_of_eq (rfl : handler = handler),
            bne_true_of_ne hy, iht]
      · have iht := ih (y :: t) (by simp [List.length_cons] at hlen ⊢; omega)
        rw [sweep_cons_ne handler x (y :: t) hx]
        simp [List.filter_cons, bne_true_of_ne hx, iht]

lemma sweep_noAdjacent_aux (handler : Nat) :
    ∀ n l, l.length ≤ n → noAdjacent handler l = true →
      sweep handler l = l.filter (fun x => x != handler) := by
  intro n
  induction n with
  | zero =>
    intro l hlen _
    have hl : l = [] := List.length_eq_zero.mp (Nat.le_zero.mp hlen)
    subst hl
    rfl
  | succ n ih =>
    intro l hlen hadj
    match l with
    | [] => rfl
    | [x] =>
      by_cases hx : x = handler
      · simp [sweep, List.filter_cons, hx, bne_false_of_eq (rfl : handler = handler)]
      · simp [sweep, List.filter_cons, hx, bne_true_of_ne hx]
    | x :: y :: t =>
      by_cases hx : x = handler
      · have hy : ¬y = handler := by
          intro hy
          simp [noAdjacent, hx, hy] at hadj
        have ht : noAdjacent handler t = true := by
          cases t with
          | nil => rfl
          | cons z t2 =>
            simp [noAdjacent] at hadj ⊢
            exact hadj.2.2
        have iht := ih t (by simp [List.length_cons] at hlen ⊢; omega) ht
        simp [sweep, List.filter_cons, hx, bne_false_of_eq (rfl : handler = handler),
          bne_true_of_ne hy, iht]
      · have hadj2 : noAdjacent handler (y :: t) = true := by
          cases t with
          | nil => rfl
          | cons z t2 =>
            simp [noAdjacent] at hadj ⊢
            exact hadj.2
        have iht := ih (y :: t) (by simp [List.length_cons] at hlen ⊢; omega) hadj2
        rw [sweep_cons_ne handler x (y :: t) hx]
        rw [iht]
        simp [List.filter_cons, bne_true_of_ne hx]

/-- C5 (amended): `dispose` on an existing entry rewrites the observer list
    by one left-to-right forEach/splice pass (`sweep`): every non-matching
    handler is preserved in order and multiplicity, all occurrences of the
    handler are removed whenever no two of them are adjacent, but (per the
    counterexample) the occurrence that slides into a removed slot survives;
    the entry's path, task, source and mutability and every other entry are
    untouched, no event is emitted, and an unknown URI is a no-op. -/
theorem C5_amended_dispose :
    (∀ st uri handler, lookupc st.cache uri = none → dispose st uri handler = (st, [])) ∧
    (∀ st uri handler e, lookupc st.cache uri = some e →
      (dispose st uri handler).2 = [] ∧
      (dispose st uri handler).1.pending = st.pending ∧
      (∀ u, ¬u = uri → lookupc (dispose st uri handler).1.cache u = lookupc st.cache u) ∧
      lookupc (dispose st uri handler).1.cache uri =
        some { e with handlers := sweep handler e.handlers }) ∧
    (∀ handler l,
      (sweep handler l).filter (fun x => x != handler) = l.filter (fun x => x != handler)) ∧
    (∀ handler l, noAdjacent handler l = true →
      sweep handler l = l.filter (fun x => x != handler)) := by
  refine ⟨?_, ?_, ?_, ?_⟩
  · intro st uri handler h
    simp [dispose, h]
  · intro st uri handler e h
    refine ⟨by simp [dispose, h], by simp [dispose, h], ?_, ?_⟩
    · intro u hu
      have h2 : ¬uri = u := fun hh => hu hh.symm
      simp [dispose, h, lookupc_updatec, h2]
    · simp [dispose, h, lookupc_updatec, spliceGo_eq_sweep]
  · intro handler l
    exact sweep_filter_aux handler l.length l le_rfl
  · intro handler l hadj
    exact sweep_noAdjacent_aux handler l.length l le_rfl hadj

/-- C5 (witness): concrete instance of the amended dispose behaviour. -/
theorem C5_amended_witness :
    (dispose stDup "u" 7).2 = [] ∧
    lookupc (dispose stDup "u" 7).1.cache "u" = some { eDup with handlers := sweep 7 eDup.handlers } :=
  ⟨(C5_amended_dispose.2.1 stDup "u" 7 eDup (by decide)).1,
   (C5_amended_dispose.2.1 stDup "u" 7 eDup (by decide)).2.2.2⟩

/-- C5 (counterexample): with the handler registered twice at adjacent
    positions, one occurrence survives `dispose`, contradicting the claim
    that no occurrence remains. -/
theorem C5_counterexample :
    handlersOf (dispose stDup "u" 7).1 "u" = [7] ∧
    7 ∈ handlersOf (dispose stDup "u" 7).1 "u" := by
  constructor <;> decide

/-! ## Resolution-step helper lemmas -/

lemma pathOf_get_some (st : CacheState) (uri : String) (e : CacheEntry) (p : String)
    (h : lookupc st.cache uri = some e) (hp : e.path = some p) :
    pathOf (get st uri).1 uri = some p := by
  simp [get, h, hp, pathOf]

lemma pathOf_get_none (st : CacheState) (uri : String) (e : CacheEntry)
    (h : lookupc st.cache uri = some e) (hp : e.path = none) :
    pathOf (get st uri).1 uri = none := by
  simp only [get, h, hp]
  cases ht : e.task with
  | some j => simp [download, h, ht, pathOf, hp]
  | none => simp [download, h, ht, pathOf, lookupc_updatec, hp]

/-! ## C7: bust frame conditions -/

/-- C7: `bust` on an unknown URI or on an immutable entry is a complete
    no-op — the returned state is the input state itself (every entry field,
    the index and the scheduled callbacks included) and no event (in
    particular no download start) is emitted; on an existing mutable entry
    it clears `localPath` to absent and re-runs the resolution step `get`,
    after which the path is still absent until a fresh fetch resolves. -/
theorem C7_bust_noop :
    (∀ st uri, lookupc st.cache uri = none → bust st uri = (st, [])) ∧
    (∀ st uri e, lookupc st.cache uri = some e → e.immutable = true → bust st uri = (st, [])) ∧
    (∀ st uri e, lookupc st.cache uri = some e → e.immutable = false →
      bust st uri =
        get { st with cache := updatec st.cache uri (fun e2 => { e2 with path := none }) } uri ∧
      pathOf (bust st uri).1 uri = none) := by
  refine ⟨?_, ?_, ?_⟩
  · intro st uri h
    simp [bust, h]
  · intro st uri e h himm
    simp [bust, h, himm]
  · intro st uri e h himm
    have hb : bust st uri =
        get { st with cache := updatec st.cache uri (fun e2 => { e2 with path := none }) } uri := by
      simp [bust, h, himm]
    refine ⟨hb, ?_⟩
    rw [hb]
    apply pathOf_get_none _ _ { e with path := none }
    · simp [lookupc_updatec, h]
    · rfl

/-- C7 (witness): concrete no-op instances of `bust`. -/
theorem C7_witness :
    bust stImm "u" = (stImm, []) ∧ bust initState "v" = (initState, []) :=
  ⟨C7_bust_noop.2.1 stImm "u" eImm (by decide) (by decide),
   C7_bust_noop.1 initState "v" (by decide)⟩

/-! ## C10: cancel frame conditions -/

/-- C10: `cancel` returns the coordinator state unchanged — it only asks the
    filesystem layer to stop the download, and in particular does *not*
    clear the entry's task handle — so a resolution step run immediately
    after `cancel` on a URI with a pending fetch issues no new download. -/
theorem C10_cancel_no_mutation :
    (∀ st uri, (cancel st uri).1 = st) ∧
    (∀ st uri j, taskOf st uri = some j →
      taskOf (cancel st uri).1 uri = some j ∧
      countStarts (get (cancel st uri).1 uri).2 = 0) := by
  have hpure : ∀ st uri, (cancel st uri).1 = st := by
    intro st uri
    cases h : lookupc st.cache uri with
    | none => simp [cancel, h]
    | some e =>
      cases ht : e.task with
      | none => simp [cancel, h, ht]
      | some j => simp [cancel, h, ht]
  refine ⟨hpure, ?_⟩
  intro st uri j hj
  rw [hpure st uri]
  refine ⟨hj, ?_⟩
  obtain ⟨e, he, hte⟩ : ∃ e, lookupc st.cache uri = some e ∧ e.task = some j := by
    unfold taskOf at hj
    cases h : lookupc st.cache uri with
    | none => rw [h] at hj; simp at hj
    | some e => rw [h] at hj; exact ⟨e, rfl, hj⟩
  cases hp : e.path with
  | some p => simp [get, he, hp, countStarts]
  | none => simp [get, he, hp, download, hte, countStarts]

/-- C10 (witness): concrete instance with a pending fetch. -/
theorem C10_cancel_witness :
    taskOf (cancel stW "u").1 "u" = some 5 ∧
    countStarts (get (cancel stW "u").1 "u").2 = 0 :=
  C10_cancel_no_mutation.2 stW "u" 5 (by decide)

/-! ## C2: immutable path determinism -/

/-- C2: for an immutable registration the computed local path is the pure
    deterministic function `immutablePath` of the URI alone — `getPath` with
    the immutable flag ignores and does not consume the random-token state —
    and the path is already assigned on the entry when `on` itself returns,
    hence before any download or filesystem callback has fired. -/
theorem C2_immutable_path_deterministic :
    (∀ tok uri, getPath tok uri true = (immutablePath uri, tok)) ∧
    (∀ st source handler, lookupc st.cache source.uri = none →
      pathOf ((«on» st source handler (some true))).1 source.uri =
        some (immutablePath source.uri)) := by
  constructor
  · intro tok uri
    simp [getPath]
  · intro st source handler h
    have hstep : («on» st source handler (some true)) =
        get { st with cache := st.cache ++ [(source.uri, newEntry source handler (some true))] } source.uri := by
      simp [«on», h]
    rw [hstep]
    apply pathOf_get_some _ _ (newEntry source handler (some true))
    · have := lookupc_append_none h source.uri (newEntry source handler (some true))
      simpa using this
    · rfl

/-- C2 (witness): concrete immutable registration from the initial state. -/
theorem C2_witness :
    pathOf ((«on» initState { uri := "https://x/b.png?v=2", method := none } 1 (some true))).1
      "https://x/b.png?v=2" = some (immutablePath "https://x/b.png?v=2") :=
  C2_immutable_path_deterministic.2 initState { uri := "https://x/b.png?v=2", method := none } 1
    (by decide)

/-! ## C8: failure cleanup -/

/-- C8: resolving a download callback with failure (network error or
    cancellation) clears the in-flight handle, emits exactly one best-effort
    delete of the destination file — in particular no notification — leaves
    every other entry field unchanged, and leaves the entry retryable: a
    later registration on an idle unresolved entry issues exactly one fresh
    download. -/
theorem C8_failure_cleanup :
    (∀ st i key uri dest j e, st.pending[i]? = some (Pending.downloadDone key uri dest j) →
      lookupc st.cache key = some e →
      (firePending st i false).2 = [Event.unlink dest] ∧
      lookupc (firePending st i false).1.cache key = some { e with task := none } ∧
      (firePending st i false).1.pending = st.pending.eraseIdx i) ∧
    (∀ st uri e source handler imm, lookupc st.cache uri = some e → e.task = none →
      e.path = none → source.uri = uri →
      countStarts ((«on» st source handler imm)).2 = 1) := by
  constructor
  · intro st i key uri dest j e hp he
    refine ⟨by simp [firePending, hp], ?_, by simp [firePending, hp]⟩
    simp [firePending, hp, lookupc_updatec, he]
  · intro st uri e source handler imm he ht hpath hsrc
    rw [← hsrc] at he
    simp only [«on», he]
    have hl : lookupc (updatec st.cache source.uri
        (fun e2 => { e2 with handlers := e2.handlers ++ [handler] })) source.uri =
        some { e with handlers := e.handlers ++ [handler] } := by
      simp [lookupc_updatec, he]
    simp [get, hl, hpath, download, ht, countStarts, Event.isStart]

/-- C8 (witness): concrete failure resolution and concrete re-registration. -/
theorem C8_witness :
    ((firePending stFail 0 false).2 = [Event.unlink "/caches/react-native-img-cache/tok-9.jpg"] ∧
     lookupc (firePending stFail 0 false).1.cache "u" = some { eW with task := none } ∧
     (firePending stFail 0 false).1.pending = stFail.pending.eraseIdx 0) ∧
    countStarts ((«on» stIdle { uri := "u", method := none } 2 none)).2 = 1 :=
  ⟨C8_failure_cleanup.1 stFail 0 "u" "u" "/caches/react-native-img-cache/tok-9.jpg" 5 eW
      (by decide) (by decide),
   C8_failure_cleanup.2 stIdle "u" eIdle { uri := "u", method := none } 2 none
      (by decide) (by decide) (by decide) (by decide)⟩

/-! ## C3: post-fetch verification miss -/

/-- C3 (counterexample): run a mutable registration, let the download report
    success, then let the chained existence check report the file absent.
    No observer is notified — but `localPath` does not remain unresolved: it
    has been set to the (missing) destination path, contrary to the claim
    that the path is assigned only once the file is verified present. -/
theorem C3_counterexample :
    pathOf (run initState missTrace).1 "https://x/a.png" =
      some "/caches/react-native-img-cache/tok-0.png" ∧
    (run initState missTrace).2 =
      [Event.downloadStarted "https://x/a.png" "/caches/react-native-img-cache/tok-0.png" 0] := by
  constructor <;> decide

/-- C3 (amended): on successful completion the coordinator clears the
    in-flight handle and unconditionally assigns `localPath` to the
    destination path *before* the existence check, which it schedules; only
    the notification is gated on the verification: when the check reports
    the file absent, nothing further happens — no notification and no state
    change beyond consuming the callback. -/
theorem C3_amended_verification_miss :
    (∀ st i key uri dest j e, st.pending[i]? = some (Pending.downloadDone key uri dest j) →
      lookupc st.cache key = some e →
      (firePending st i true).2 = [] ∧
      lookupc (firePending st i true).1.cache key = some { e with path := some dest, task := none } ∧
      (firePending st i true).1.pending = st.pending.eraseIdx i ++ [Pending.postExists uri dest]) ∧
    (∀ st i uri dest, st.pending[i]? = some (Pending.postExists uri dest) →
      firePending st i false = ({ st with pending := st.pending.eraseIdx i }, [])) := by
  constructor
  · intro st i key uri dest j e hp he
    refine ⟨by simp [firePending, hp], ?_, by simp [firePending, hp]⟩
    simp [firePending, hp, lookupc_updatec, he]
  · intro st i uri dest hp
    simp [firePending, hp]

/-- C3 (witness): concrete instances of the amended behaviour. -/
theorem C3_amended_witness :
    ((firePending stFail 0 true).2 = [] ∧
     lookupc (firePending stFail 0 true).1.cache "u" =
       some { eW with path := some "/caches/react-native-img-cache/tok-9.jpg", task := none } ∧
     (firePending stFail 0 true).1.pending = stFail.pending.eraseIdx 0 ++
       [Pending.postExists "u" "/caches/react-native-img-cache/tok-9.jpg"]) ∧
    firePending stPE 0 false = ({ stPE with pending := stPE.pending.eraseIdx 0 }, []) :=
  ⟨C3_amended_verification_miss.1 stFail 0 "u" "u" "/caches/react-native-img-cache/tok-9.jpg" 5 eW
      (by decide) (by decide),
   C3_amended_verification_miss.2 stPE 0 "u" "/caches/react-native-img-cache/tok-9.jpg"
      (by decide)⟩

/-! ## C1: at most one fetch in flight -/

lemma regInval_step (uri : String) (j : Nat) (c : Cmd) (hc : regInvalOn uri c = true)
    (st : CacheState) (e : CacheEntry) (he : lookupc st.cache uri = some e)
    (ht : e.task = some j) :
    (step st c).2 = [] ∧
    ∃ e2, lookupc (step st c).1.cache uri = some e2 ∧ e2.task = some j := by
  cases c with
  | onCmd s h imm =>
    have hs : s.uri = uri := by simpa [regInvalOn] using hc
    rw [← hs] at he ⊢
    simp only [step, «on», he]
    have hl : lookupc (updatec st.cache s.uri
        (fun e2 => { e2 with handlers := e2.handlers ++ [h] })) s.uri =
        some { e with handlers := e.handlers ++ [h] } := by
      simp [lookupc_updatec, he]
    cases hp : e.path with
    | some p =>
      refine ⟨by simp [get, hl, hp], ?_⟩
      refine ⟨{ e with handlers := e.handlers ++ [h] }, ?_, ht⟩
      simp [get, hl, hp]
    | none =>
      refine ⟨by simp [get, hl, hp, download, ht], ?_⟩
      refine ⟨{ e with handlers := e.handlers ++ [h] }, ?_, ht⟩
      simp [get, hl, hp, download, ht]
  | disposeCmd u h => simp [regInvalOn] at hc
  | bustCmd u =>
    have hu : u = uri := by simpa [regInvalOn] using hc
    subst hu
    cases himm : e.immutable with
    | true =>
      simp only [step, bust, he, himm]
      exact ⟨rfl, e, he, ht⟩
    | false =>
      simp only [step, bust, he, himm]
      have hl : lookupc (updatec st.cache u (fun e2 => { e2 with path := none })) u =
          some { e with path := none } := by
        simp [lookupc_updatec, he]
      refine ⟨by simp [get, hl, download, ht], ?_⟩
      refine ⟨{ e with path := none }, ?_, ht⟩
      simp [get, hl, download, ht]
  | cancelCmd u => simp [regInvalOn] at hc
  | fire i r => simp [regInvalOn] at hc

lemma regInval_run (uri : String) (j : Nat) :
    ∀ cmds, (∀ c ∈ cmds, regInvalOn uri c = true) →
      ∀ st e, lookupc st.cache uri = some e → e.task = some j →
        (run st cmds).2 = [] ∧
        ∃ e2, lookupc (run st cmds).1.cache uri = some e2 ∧ e2.task = some j := by
  intro cmds
  induction cmds with
  | nil =>
    intro _ st e he ht
    exact ⟨rfl, e, he, ht⟩
  | cons c cs ih =>
    intro hall st e he ht
    have hc := hall c (by simp)
    obtain ⟨hev, e2, he2, ht2⟩ := regInval_step uri j c hc st e he ht
    obtain ⟨hev2, e3, he3, ht3⟩ := ih (fun c2 hc2 => hall c2 (by simp [hc2])) (step st c).1 e2 he2 ht2
    refine ⟨?_, e3, he3, ht3⟩
    simp [run, hev, hev2]

/-- C1: the internal download operation is a no-op whenever the entry's
    in-flight task handle is already set; consequently any sequence of
    register (`on`) / invalidate (`bust`) calls for a URI whose fetch is
    pending emits no event at all — in particular no further download — and
    leaves the task handle in place; and registering two observers for the
    same URI before resolution issues exactly one download. -/
theorem C1_single_fetch :
    (∀ st uri e, lookupc st.cache uri = some e → e.task.isSome = true →
      download st uri = (st, [])) ∧
    (∀ uri j cmds, (∀ c ∈ cmds, regInvalOn uri c = true) →
      ∀ st e, lookupc st.cache uri = some e → e.task = some j →
        (run st cmds).2 = [] ∧ taskOf (run st cmds).1 uri = some j) ∧
    countStarts (run initState doubleRegTrace).2 = 1 := by
  refine ⟨?_, ?_, ?_⟩
  · intro st uri e he hts
    obtain ⟨j, ht⟩ := Option.isSome_iff_exists.mp hts
    simp [download, he, ht]
  · intro uri j cmds hall st e he ht
    obtain ⟨hev, e2, he2, ht2⟩ := regInval_run uri j cmds hall st e he ht
    exact ⟨hev, by simp [taskOf, he2, ht2]⟩
  · decide

/-- C1 (witness): on the concrete in-flight state `stW`, download is a no-op
    and an invalidation emits nothing and keeps the task handle. -/
theorem C1_witness :
    download stW "u" = (stW, []) ∧
    ((run stW [Cmd.bustCmd "u"]).2 = [] ∧ taskOf (run stW [Cmd.bustCmd "u"]).1 "u" = some 5) :=
  ⟨C1_single_fetch.1 stW "u" eW (by decide) (by decide),
   C1_single_fetch.2.1 "u" 5 [Cmd.bustCmd "u"] (by decide) stW eW (by decide) (by decide)⟩

/-! ## Shape lemmas for the operations -/

lemma lookupc_updatec_inv {m : List (String × CacheEntry)} {k : String}
    {f : CacheEntry → CacheEntry} {u : String} {e2 : CacheEntry}
    (h : lookupc (updatec m k f) u = some e2) :
    ∃ e, lookupc m u = some e ∧ (e2 = e ∨ (k = u ∧ e2 = f e)) := by
  rw [lookupc_updatec] at h
  by_cases hk : k = u
  · rw [if_pos hk] at h
    cases hm : lookupc m u with
    | none => rw [hm] at h; simp at h
    | some e =>
      rw [hm] at h
      simp at h
      exact ⟨e, rfl, Or.inr ⟨hk, h.symm⟩⟩
  · rw [if_neg hk] at h
    exact ⟨e2, h, Or.inl rfl⟩

lemma lookupc_append_inv {m : List (String × CacheEntry)} {k u : String}
    {v e2 : CacheEntry} (h : lookupc (m ++ [(k, v)]) u = some e2) :
    lookupc m u = some e2 ∨ (lookupc m u = none ∧ k = u ∧ e2 = v) := by
  cases hm : lookupc m u with
  | some e =>
    left
    rw [lookupc_append_some hm k v] at h
    exact h
  | none =>
    right
    rw [lookupc_append_none hm k v] at h
    by_cases hk : k = u
    · rw [if_pos hk] at h
      simp only [Option.some.injEq] at h
      exact ⟨rfl, hk, h.symm⟩
    · rw [if_neg hk] at h
      simp at h

lemma download_shape (st : CacheState) (key : String) :
    (lookupc st.cache key = none ∧ download st key = (st, [])) ∨
    (∃ e j, lookupc st.cache key = some e ∧ e.task = some j ∧ download st key = (st, [])) ∨
    (∃ e, lookupc st.cache key = some e ∧ e.task = none ∧
      download st key =
        ({ cache := updatec st.cache key (fun e2 => { e2 with task := some st.nextJob }),
           pending := st.pending ++ [Pending.downloadDone key e.source.uri
             (getPath st.nextTok e.source.uri e.immutable).1 st.nextJob],
           nextJob := st.nextJob + 1,
           nextTok := (getPath st.nextTok e.source.uri e.immutable).2 },
         [Event.downloadStarted e.source.uri
           (getPath st.nextTok e.source.uri e.immutable).1 st.nextJob])) := by
  cases hk : lookupc st.cache key with
  | none =>
    left
    exact ⟨rfl, by simp [download, hk]⟩
  | some e =>
    cases ht : e.task with
    | some j =>
      right; left
      exact ⟨e, j, rfl, ht, by simp [download, hk, ht]⟩
    | none =>
      right; right
      exact ⟨e, rfl, ht, by simp [download, hk, ht]⟩

lemma get_shape (st : CacheState) (uri : String) :
    (lookupc st.cache uri = none ∧ get st uri = (st, [])) ∨
    (∃ e p, lookupc st.cache uri = some e ∧ e.path = some p ∧
      get st uri = ({ st with pending := st.pending ++ [Pending.existsCheck uri p] }, [])) ∨
    (∃ e, lookupc st.cache uri = some e ∧ e.path = none ∧ get st uri = download st uri) := by
  cases hk : lookupc st.cache uri with
  | none =>
    left
    exact ⟨rfl, by simp [get, hk]⟩
  | some e =>
    cases hp : e.path with
    | some p =>
      right; left
      exact ⟨e, p, rfl, hp, by simp [get, hk, hp]⟩
    | none =>
      right; right
      exact ⟨e, rfl, hp, by simp [get, hk, hp]⟩

lemma on_shape (st : CacheState) (source : Source) (handler : Nat) (imm : Option Bool) :
    (lookupc st.cache source.uri = none ∧
      «on» st source handler imm =
        get { st with cache := st.cache ++ [(source.uri, newEntry source handler imm)] } source.uri) ∨
    (∃ e, lookupc st.cache source.uri = some e ∧
      «on» st source handler imm =
        get { st with cache := updatec st.cache source.uri (fun e2 => { e2 with handlers := e2.handlers ++ [handler] }) } source.uri) := by
  cases hk : lookupc st.cache source.uri with
  | none =>
    left
    exact ⟨rfl, by simp [«on», hk]⟩
  | some e =>
    right
    exact ⟨e, rfl, by simp [«on», hk]⟩

lemma bust_shape (st : CacheState) (uri : String) :
    (lookupc st.cache uri = none ∧ bust st uri = (st, [])) ∨
    (∃ e, lookupc st.cache uri = some e ∧ e.immutable = true ∧ bust st uri = (st, [])) ∨
    (∃ e, lookupc st.cache uri = some e ∧ e.immutable = false ∧
      bust st uri = get { st with cache := updatec st.cache uri (fun e2 => { e2 with path := none }) } uri) := by
  cases hk : lookupc st.cache uri with
  | none =>
    left
    exact ⟨rfl, by simp [bust, hk]⟩
  | some e =>
    cases hi : e.immutable with
    | true =>
      right; left
      exact ⟨e, rfl, hi, by simp [bust, hk, hi]⟩
    | false =>
      right; right
      exact ⟨e, rfl, hi, by simp [bust, hk, hi]⟩

lemma dispose_shape (st : CacheState) (uri : String) (handler : Nat) :
    (lookupc st.cache uri = none ∧ dispose st uri handler = (st, [])) ∨
    (∃ e, lookupc st.cache uri = some e ∧
      dispose st uri handler = ({ st with cache := updatec st.cache uri (fun e2 => { e2 with handlers := spliceGo handler e2.handlers.length e2.handlers 0 }) }, [])) := by
  cases hk : lookupc st.cache uri with
  | none =>
    left
    exact ⟨rfl, by simp [dispose, hk]⟩
  | some e =>
    right
    exact ⟨e, rfl, by simp [dispose, hk]⟩

lemma cancel_fst (st : CacheState) (uri : String) : (cancel st uri).1 = st := by
  cases hk : lookupc st.cache uri with
  | none => simp [cancel, hk]
  | some e =>
    cases ht : e.task with
    | none => simp [cancel, hk, ht]
    | some j => simp [cancel, hk, ht]

lemma firePending_shape (st : CacheState) (i : Nat) (r : Bool) :
    (st.pending[i]? = none ∧ firePending st i r = (st, [])) ∨
    (∃ key q, st.pending[i]? = some (Pending.existsCheck key q) ∧
      ((r = true ∧ firePending st i r =
          ({ st with pending := st.pending.eraseIdx i },
           notify { st with pending := st.pending.eraseIdx i } key)) ∨
       (r = false ∧ firePending st i r = download { st with pending := st.pending.eraseIdx i } key))) ∨
    (∃ key uri dest j, st.pending[i]? = some (Pending.downloadDone key uri dest j) ∧
      ((r = true ∧ firePending st i r =
          ({ st with cache := updatec st.cache key (fun e => { e with path := some dest, task := none }), pending := st.pending.eraseIdx i ++ [Pending.postExists uri dest] }, [])) ∨
       (r = false ∧ firePending st i r =
          ({ st with cache := updatec st.cache key (fun e => { e with task := none }), pending := st.pending.eraseIdx i }, [Event.unlink dest])))) ∨
    (∃ uri dest, st.pending[i]? = some (Pending.postExists uri dest) ∧
      ((r = true ∧ firePending st i r =
          ({ st with pending := st.pending.eraseIdx i },
           notify { st with pending := st.pending.eraseIdx i } uri)) ∨
       (r = false ∧ firePending st i r = ({ st with pending := st.pending.eraseIdx i }, [])))) := by
  cases hp : st.pending[i]? with
  | none =>
    left
    exact ⟨rfl, by simp [firePending, hp]⟩
  | some p =>
    cases p with
    | existsCheck key q =>
      right; left
      refine ⟨key, q, rfl, ?_⟩
      cases r with
      | true => left; exact ⟨rfl, by simp [firePending, hp]⟩
      | false => right; exact ⟨rfl, by simp [firePending, hp]⟩
    | downloadDone key uri dest j =>
      right; right; left
      refine ⟨key, uri, dest, j, rfl, ?_⟩
      cases r with
      | true => left; exact ⟨rfl, by simp [firePending, hp]⟩
      | false => right; exact ⟨rfl, by simp [firePending, hp]⟩
    | postExists uri dest =>
      right; right; right
      refine ⟨uri, dest, rfl, ?_⟩
      cases r with
      | true => left; exact ⟨rfl, by simp [firePending, hp]⟩
      | false => right; exact ⟨rfl, by simp [firePending, hp]⟩

/-! ## Invariant preservation building blocks -/

lemma mem_of_idx {α : Type} {l : List α} {i : Nat} {a : α} (h : l[i]? = some a) : a ∈ l := by
  obtain ⟨hlt, rfl⟩ := List.getElem?_eq_some.mp h
  exact List.getElem_mem hlt

lemma mem_of_mem_eraseIdx {α : Type} {l : List α} {i : Nat} {a : α}
    (h : a ∈ l.eraseIdx i) : a ∈ l :=
  (List.eraseIdx_sublist l i).subset h

lemma coherentCache_updatec {m : List (String × CacheEntry)} {k : String}
    {f : CacheEntry → CacheEntry} (hf : ∀ e, (f e).source = e.source)
    (h : CoherentCache m) : CoherentCache (updatec m k f) := by
  intro u e2 he2
  obtain ⟨e, he, hcase⟩ := lookupc_updatec_inv he2
  cases hcase with
  | inl hh =>
    rw [hh]
    exact h u e he
  | inr hh =>
    rw [hh.2, hf e]
    exact h u e he

lemma coherentCache_append {m : List (String × CacheEntry)} {k : String} {v : CacheEntry}
    (hv : v.source.uri = k) (h : CoherentCache m) : CoherentCache (m ++ [(k, v)]) := by
  intro u e2 he2
  rcases lookupc_append_inv he2 with hm | ⟨_, hk, hv2⟩
  · exact h u e2 hm
  · rw [hv2, ← hk]
    exact hv

lemma coherentPending_erase {pend : List Pending} {i : Nat}
    (h : CoherentPending pend) : CoherentPending (pend.eraseIdx i) := by
  intro p hp key uri dest j hpe
  exact h p (mem_of_mem_eraseIdx hp) key uri dest j hpe

lemma coherentPending_append {pend : List Pending} {p0 : Pending}
    (h : CoherentPending pend)
    (h0 : ∀ key uri dest j, p0 = Pending.downloadDone key uri dest j → key = uri) :
    CoherentPending (pend ++ [p0]) := by
  intro p hp key uri dest j hpe
  rcases List.mem_append.mp hp with hp1 | hp2
  · exact h p hp1 key uri dest j hpe
  · have hpp : p = p0 := by simpa using hp2
    rw [hpp] at hpe
    exact h0 key uri dest j hpe

lemma immutCache_updatec_keep {m : List (String × CacheEntry)} {k : String}
    {f : CacheEntry → CacheEntry}
    (hf : ∀ e, (f e).immutable = e.immutable ∧ (f e).path = e.path)
    (h : ImmutCache m) : ImmutCache (updatec m k f) := by
  intro u e2 he2 himm
  obtain ⟨e, he, hcase⟩ := lookupc_updatec_inv he2
  cases hcase with
  | inl hh =>
    rw [hh]
    exact h u e he (by rw [← hh]; exact himm)
  | inr hh =>
    rw [hh.2, (hf e).2]
    apply h u e he
    rw [hh.2, (hf e).1] at himm
    exact himm

lemma immutCache_updatec_mutable {m : List (String × CacheEntry)} {k : String}
    {f : CacheEntry → CacheEntry} {e0 : CacheEntry} (he0 : lookupc m k = some e0)
    (hni : e0.immutable = false) (hf : ∀ e, (f e).immutable = e.immutable)
    (h : ImmutCache m) : ImmutCache (updatec m k f) := by
  intro u e2 he2 himm
  obtain ⟨e, he, hcase⟩ := lookupc_updatec_inv he2
  cases hcase with
  | inl hh =>
    rw [hh]
    exact h u e he (by rw [← hh]; exact himm)
  | inr hh =>
    obtain ⟨hk, hf2⟩ := hh
    rw [← hk] at he
    rw [he0] at he
    cases he
    rw [hf2, hf e0] at himm
    rw [hni] at himm
    exact absurd himm (by simp)

lemma immutCache_updatec_setpath {m : List (String × CacheEntry)} {k : String} {dest : String}
    (hdest : ∀ e0, lookupc m k = some e0 → e0.immutable = true → dest = immutablePath k)
    (h : ImmutCache m) :
    ImmutCache (updatec m k (fun e => { e with path := some dest, task := none })) := by
  intro u e2 he2 himm
  obtain ⟨e, he, hcase⟩ := lookupc_updatec_inv he2
  cases hcase with
  | inl hh =>
    rw [hh]
    exact h u e he (by rw [← hh]; exact himm)
  | inr hh =>
    obtain ⟨hk, hf2⟩ := hh
    have himm2 : e.immutable = true := by
      rw [hf2] at himm
      exact himm
    have hde : dest = immutablePath k := hdest e (by rw [hk]; exact he) himm2
    rw [hf2]
    simp only
    rw [hde, hk]

lemma immutCache_append {m : List (String × CacheEntry)} {k : String} {v : CacheEntry}
    (hv : v.immutable = true → v.path = some (immutablePath k))
    (h : ImmutCache m) : ImmutCache (m ++ [(k, v)]) := by
  intro u e2 he2 himm
  rcases lookupc_append_inv he2 with hm | ⟨_, hk, hv2⟩
  · exact h u e2 hm himm
  · rw [hv2, ← hk]
    apply hv
    rw [← hv2]
    exact himm

lemma immutDD_erase {m : List (String × CacheEntry)} {pend : List Pending} {i : Nat}
    (h : ImmutDD m pend) : ImmutDD m (pend.eraseIdx i) := by
  intro p hp key uri dest j hpe e he himm
  exact h p (mem_of_mem_eraseIdx hp) key uri dest j hpe e he himm

lemma immutDD_cacheUpdate {m : List (String × CacheEntry)} {pend : List Pending} {k : String}
    {f : CacheEntry → CacheEntry} (hf : ∀ e, (f e).immutable = e.immutable)
    (h : ImmutDD m pend) : ImmutDD (updatec m k f) pend := by
  intro p hp key uri dest j hpe e2 he2 himm
  obtain ⟨e, he, hcase⟩ := lookupc_updatec_inv he2
  cases hcase with
  | inl hh =>
    exact h p hp key uri dest j hpe e he (by rw [← hh]; exact himm)
  | inr hh =>
    apply h p hp key uri dest j hpe e he
    rw [hh.2, hf e] at himm
    exact himm

lemma immutDD_cacheAppend {m : List (String × CacheEntry)} {pend : List Pending} {k : String}
    {v : CacheEntry} (_hnone : lookupc m k = none) (hdd : PSDD m pend)
    (h : ImmutDD m pend) : ImmutDD (m ++ [(k, v)]) pend := by
  intro p hp key uri dest j hpe e2 he2 himm
  obtain ⟨e0, he0⟩ := hdd p hp key uri dest j hpe
  have hkey : lookupc (m ++ [(k, v)]) key = some e0 := lookupc_append_some he0 k v
  rw [he2] at hkey
  have he20 : e2 = e0 := Option.some.inj hkey
  rw [he20] at himm
  exact h p hp key uri dest j hpe e0 he0 himm

lemma immutDD_appendPending {m : List (String × CacheEntry)} {pend : List Pending} {p0 : Pending}
    (h : ImmutDD m pend)
    (h0 : ∀ key uri dest j, p0 = Pending.downloadDone key uri dest j →
      ∀ e, lookupc m key = some e → e.immutable = true → dest = immutablePath key) :
    ImmutDD m (pend ++ [p0]) := by
  intro p hp key uri dest j hpe e he himm
  rcases List.mem_append.mp hp with hp1 | hp2
  · exact h p hp1 key uri dest j hpe e he himm
  · have hpp : p = p0 := by simpa using hp2
    rw [hpp] at hpe
    exact h0 key uri dest j hpe e he himm

lemma psdd_erase {m : List (String × CacheEntry)} {pend : List Pending} {i : Nat}
    (h : PSDD m pend) : PSDD m (pend.eraseIdx i) := by
  intro p hp key uri dest j hpe
  exact h p (mem_of_mem_eraseIdx hp) key uri dest j hpe

lemma psdd_cacheUpdate {m : List (String × CacheEntry)} {pend : List Pending} {k : String}
    {f : CacheEntry → CacheEntry} (h : PSDD m pend) : PSDD (updatec m k f) pend := by
  intro p hp key uri dest j hpe
  obtain ⟨e, he⟩ := h p hp key uri dest j hpe
  rw [lookupc_updatec]
  by_cases hk : k = key
  · exact ⟨f e, by rw [if_pos hk, he]; rfl⟩
  · exact ⟨e, by rw [if_neg hk]; exact he⟩

lemma psdd_cacheAppend {m : List (String × CacheEntry)} {pend : List Pending} {k : String}
    {v : CacheEntry} (h : PSDD m pend) : PSDD (m ++ [(k, v)]) pend := by
  intro p hp key uri dest j hpe
  obtain ⟨e, he⟩ := h p hp key uri dest j hpe
  exact ⟨e, lookupc_append_some he k v⟩

lemma psdd_appendPending {m : List (String × CacheEntry)} {pend : List Pending} {p0 : Pending}
    (h : PSDD m pend)
    (h0 : ∀ key uri dest j, p0 = Pending.downloadDone key uri dest j →
      ∃ e, lookupc m key = some e) :
    PSDD m (pend ++ [p0]) := by
  intro p hp key uri dest j hpe
  rcases List.mem_append.mp hp with hp1 | hp2
  · exact h p hp1 key uri dest j hpe
  · have hpp : p = p0 := by simpa using hp2
    rw [hpp] at hpe
    exact h0 key uri dest j hpe

lemma psExists_erase {m : List (String × CacheEntry)} {pend : List Pending} {i : Nat}
    (h : PSExists m pend) : PSExists m (pend.eraseIdx i) := by
  intro p hp key q hpe
  exact h p (mem_of_mem_eraseIdx hp) key q hpe

lemma psExists_cacheUpdate {m : List (String × CacheEntry)} {pend : List Pending} {k : String}
    {f : CacheEntry → CacheEntry}
    (hf : ∀ e, e.path.isSome = true → (f e).path.isSome = true)
    (h : PSExists m pend) : PSExists (updatec m k f) pend := by
  intro p hp key q hpe
  obtain ⟨e, he, hps⟩ := h p hp key q hpe
  rw [lookupc_updatec]
  by_cases hk : k = key
  · exact ⟨f e, by rw [if_pos hk, he]; rfl, hf e hps⟩
  · exact ⟨e, by rw [if_neg hk]; exact he, hps⟩

lemma psExists_cacheAppend {m : List (String × CacheEntry)} {pend : List Pending} {k : String}
    {v : CacheEntry} (h : PSExists m pend) : PSExists (m ++ [(k, v)]) pend := by
  intro p hp key q hpe
  obtain ⟨e, he, hps⟩ := h p hp key q hpe
  exact ⟨e, lookupc_append_some he k v, hps⟩

lemma psExists_appendPending {m : List (String × CacheEntry)} {pend : List Pending} {p0 : Pending}
    (h : PSExists m pend)
    (h0 : ∀ key q, p0 = Pending.existsCheck key q →
      ∃ e, lookupc m key = some e ∧ e.path.isSome = true) :
    PSExists m (pend ++ [p0]) := by
  intro p hp key q hpe
  rcases List.mem_append.mp hp with hp1 | hp2
  · exact h p hp1 key q hpe
  · have hpp : p = p0 := by simpa using hp2
    rw [hpp] at hpe
    exact h0 key q hpe

lemma psPost_erase {m : List (String × CacheEntry)} {pend : List Pending} {i : Nat}
    (h : PSPost m pend) : PSPost m (pend.eraseIdx i) := by
  intro p hp uri dest hpe
  exact h p (mem_of_mem_eraseIdx hp) uri dest hpe

lemma psPost_cacheUpdate {m : List (String × CacheEntry)} {pend : List Pending} {k : String}
    {f : CacheEntry → CacheEntry}
    (hf : ∀ e, e.path.isSome = true → (f e).path.isSome = true)
    (h : PSPost m pend) : PSPost (updatec m k f) pend := by
  intro p hp uri dest hpe
  obtain ⟨e, he, hps⟩ := h p hp uri dest hpe
  rw [lookupc_updatec]
  by_cases hk : k = uri
  · exact ⟨f e, by rw [if_pos hk, he]; rfl, hf e hps⟩
  · exact ⟨e, by rw [if_neg hk]; exact he, hps⟩

lemma psPost_cacheAppend {m : List (String × CacheEntry)} {pend : List Pending} {k : String}
    {v : CacheEntry} (h : PSPost m pend) : PSPost (m ++ [(k, v)]) pend := by
  intro p hp uri dest hpe
  obtain ⟨e, he, hps⟩ := h p hp uri dest hpe
  exact ⟨e, lookupc_append_some he k v, hps⟩

lemma psPost_appendPending {m : List (String × CacheEntry)} {pend : List Pending} {p0 : Pending}
    (h : PSPost m pend)
    (h0 : ∀ uri dest, p0 = Pending.postExists uri dest →
      ∃ e, lookupc m uri = some e ∧ e.path.isSome = true) :
    PSPost m (pend ++ [p0]) := by
  intro p hp uri dest hpe
  rcases List.mem_append.mp hp with hp1 | hp2
  · exact h p hp1 uri dest hpe
  · have hpp : p = p0 := by simpa using hp2
    rw [hpp] at hpe
    exact h0 uri dest hpe

/-! ## C4: immutable paths are stable -/

lemma lookupc_singleton (k : String) (v : CacheEntry) (u : String) :
    lookupc [(k, v)] u = if k = u then some v else none := by
  simp [lookupc]

lemma download_c4 (st : CacheState) (key : String) (h : C4Inv st) :
    C4Inv (download st key).1 := by
  obtain ⟨⟨hcc, hcp⟩, hdd, hic, hidd⟩ := h
  rcases download_shape st key with ⟨hk, heq⟩ | ⟨e, j, hk, ht, heq⟩ | ⟨e, hk, ht, heq⟩
  · rw [heq]
    exact ⟨⟨hcc, hcp⟩, hdd, hic, hidd⟩
  · rw [heq]
    exact ⟨⟨hcc, hcp⟩, hdd, hic, hidd⟩
  · rw [heq]
    have hsrc : e.source.uri = key := hcc key e hk
    refine ⟨⟨?_, ?_⟩, ?_, ?_, ?_⟩
    · exact coherentCache_updatec (fun e2 => rfl) hcc
    · apply coherentPending_append hcp
      intro key2 uri2 dest2 j2 hpe
      injection hpe with h1 h2 h3 h4
      rw [← h1, ← h2]
      exact hsrc.symm
    · apply psdd_appendPending (psdd_cacheUpdate hdd)
      intro key2 uri2 dest2 j2 hpe
      injection hpe with h1 h2 h3 h4
      rw [← h1, lookupc_updatec, if_pos rfl, hk]
      exact ⟨_, rfl⟩
    · exact immutCache_updatec_keep (fun e2 => ⟨rfl, rfl⟩) hic
    · refine immutDD_appendPending ?_ ?_
      · exact immutDD_cacheUpdate (fun e2 => rfl) hidd
      · intro key2 uri2 dest2 j2 hpe e2 he2 himm
        injection hpe with h1 h2 h3 h4
        rw [← h1] at he2
        obtain ⟨e3, he3, hcase⟩ := lookupc_updatec_inv he2
        have hee : e3 = e := by
          rw [hk] at he3
          exact (Option.some.inj he3).symm
        have himm2 : e.immutable = true := by
          rcases hcase with hh | hh
          · rw [hh, hee] at himm
            exact himm
          · rw [hh.2, hee] at himm
            exact himm
        rw [← h3, ← h1]
        simp [getPath, himm2, hsrc]

lemma get_c4 (st : CacheState) (uri : String) (h : C4Inv st) : C4Inv (get st uri).1 := by
  rcases get_shape st uri with ⟨hk, heq⟩ | ⟨e, p, hk, hp, heq⟩ | ⟨e, hk, hp, heq⟩
  · rw [heq]
    exact h
  · rw [heq]
    obtain ⟨⟨hcc, hcp⟩, hdd, hic, hidd⟩ := h
    refine ⟨⟨hcc, ?_⟩, ?_, hic, ?_⟩
    · exact coherentPending_append hcp (fun key uri2 dest j hpe => Pending.noConfusion hpe)
    · exact psdd_appendPending hdd (fun key uri2 dest j hpe => Pending.noConfusion hpe)
    · exact immutDD_appendPending hidd (fun key uri2 dest j hpe => Pending.noConfusion hpe)
  · rw [heq]
    exact download_c4 st uri h

lemma on_c4 (st : CacheState) (source : Source) (handler : Nat) (imm : Option Bool)
    (h : C4Inv st) : C4Inv ((«on» st source handler imm)).1 := by
  rcases on_shape st source handler imm with ⟨hk, heq⟩ | ⟨e, hk, heq⟩
  · rw [heq]
    apply get_c4
    obtain ⟨⟨hcc, hcp⟩, hdd, hic, hidd⟩ := h
    refine ⟨⟨?_, hcp⟩, ?_, ?_, ?_⟩
    · exact coherentCache_append rfl hcc
    · exact psdd_cacheAppend hdd
    · apply immutCache_append ?_ hic
      intro hv
      simp only [newEntry] at hv ⊢
      rw [if_pos hv]
    · exact immutDD_cacheAppend hk hdd hidd
  · rw [heq]
    apply get_c4
    obtain ⟨⟨hcc, hcp⟩, hdd, hic, hidd⟩ := h
    exact ⟨⟨coherentCache_updatec (fun e2 => rfl) hcc, hcp⟩,
      psdd_cacheUpdate hdd,
      immutCache_updatec_keep (fun e2 => ⟨rfl, rfl⟩) hic,
      immutDD_cacheUpdate (fun e2 => rfl) hidd⟩

lemma bust_c4 (st : CacheState) (uri : String) (h : C4Inv st) : C4Inv (bust st uri).1 := by
  rcases bust_shape st uri with ⟨hk, heq⟩ | ⟨e, hk, hi, heq⟩ | ⟨e, hk, hi, heq⟩
  · rw [heq]
    exact h
  · rw [heq]
    exact h
  · rw [heq]
    apply get_c4
    obtain ⟨⟨hcc, hcp⟩, hdd, hic, hidd⟩ := h
    exact ⟨⟨coherentCache_updatec (fun e2 => rfl) hcc, hcp⟩,
      psdd_cacheUpdate hdd,
      immutCache_updatec_mutable hk hi (fun e2 => rfl) hic,
      immutDD_cacheUpdate (fun e2 => rfl) hidd⟩

lemma dispose_c4 (st : CacheState) (uri : String) (handler : Nat) (h : C4Inv st) :
    C4Inv (dispose st uri handler).1 := by
  rcases dispose_shape st uri handler with ⟨hk, heq⟩ | ⟨e, hk, heq⟩
  · rw [heq]
    exact h
  · rw [heq]
    obtain ⟨⟨hcc, hcp⟩, hdd, hic, hidd⟩ := h
    exact ⟨⟨coherentCache_updatec (fun e2 => rfl) hcc, hcp⟩,
      psdd_cacheUpdate hdd,
      immutCache_updatec_keep (fun e2 => ⟨rfl, rfl⟩) hic,
      immutDD_cacheUpdate (fun e2 => rfl) hidd⟩

lemma cancel_c4 (st : CacheState) (uri : String) (h : C4Inv st) : C4Inv (cancel st uri).1 := by
  rw [cancel_fst]
  exact h

lemma fire_c4 (st : CacheState) (i : Nat) (r : Bool) (h : C4Inv st) :
    C4Inv (firePending st i r).1 := by
  have herase : C4Inv { st with pending := st.pending.eraseIdx i } := by
    obtain ⟨⟨hcc, hcp⟩, hdd, hic, hidd⟩ := h
    exact ⟨⟨hcc, coherentPending_erase hcp⟩, psdd_erase hdd, hic, immutDD_erase hidd⟩
  rcases firePending_shape st i r with ⟨hp, heq⟩ | ⟨key, q, hp, hcase⟩ |
    ⟨key, uri, dest, j, hp, hcase⟩ | ⟨uri, dest, hp, hcase⟩
  · rw [heq]
    exact h
  · rcases hcase with ⟨hr, heq⟩ | ⟨hr, heq⟩
    · rw [heq]
      exact herase
    · rw [heq]
      exact download_c4 _ _ herase
  · rcases hcase with ⟨hr, heq⟩ | ⟨hr, heq⟩
    · rw [heq]
      obtain ⟨⟨hcc, hcp⟩, hdd, hic, hidd⟩ := h
      have hmem : Pending.downloadDone key uri dest j ∈ st.pending := mem_of_idx hp
      refine ⟨⟨?_, ?_⟩, ?_, ?_, ?_⟩
      · exact coherentCache_updatec (fun e2 => rfl) hcc
      · exact coherentPending_append (coherentPending_erase hcp)
          (fun k2 u2 d2 j2 hpe => Pending.noConfusion hpe)
      · exact psdd_appendPending (psdd_cacheUpdate (psdd_erase hdd))
          (fun k2 u2 d2 j2 hpe => Pending.noConfusion hpe)
      · apply immutCache_updatec_setpath ?_ hic
        intro e0 he0 himm0
        exact hidd _ hmem key uri dest j rfl e0 he0 himm0
      · exact immutDD_appendPending (immutDD_cacheUpdate (fun e2 => rfl) (immutDD_erase hidd))
          (fun k2 u2 d2 j2 hpe => Pending.noConfusion hpe)
    · rw [heq]
      obtain ⟨⟨hcc, hcp⟩, hdd, hic, hidd⟩ := h
      exact ⟨⟨coherentCache_updatec (fun e2 => rfl) hcc, coherentPending_erase hcp⟩,
        psdd_cacheUpdate (psdd_erase hdd),
        immutCache_updatec_keep (fun e2 => ⟨rfl, rfl⟩) hic,
        immutDD_cacheUpdate (fun e2 => rfl) (immutDD_erase hidd)⟩
  · rcases hcase with ⟨hr, heq⟩ | ⟨hr, heq⟩ <;> rw [heq] <;> exact herase

lemma step_c4 (st : CacheState) (c : Cmd) (h : C4Inv st) : C4Inv (step st c).1 := by
  cases c with
  | onCmd s hd imm => exact on_c4 st s hd imm h
  | disposeCmd u hd => exact dispose_c4 st u hd h
  | bustCmd u => exact bust_c4 st u h
  | cancelCmd u => exact cancel_c4 st u h
  | fire i r => exact fire_c4 st i r h

lemma c4Inv_init : C4Inv initState := by
  refine ⟨⟨?_, ?_⟩, ?_, ?_, ?_⟩
  · intro u e he
    exact Option.noConfusion he
  · intro p hp
    exact absurd hp (List.not_mem_nil p)
  · intro p hp
    exact absurd hp (List.not_mem_nil p)
  · intro u e he
    exact Option.noConfusion he
  · intro p hp
    exact absurd hp (List.not_mem_nil p)

lemma updatec_persist (f : CacheEntry → CacheEntry) {m : List (String × CacheEntry)}
    {k : String} {u : String} {e : CacheEntry}
    (he : lookupc m u = some e) (hf : ∀ x, (f x).immutable = x.immutable) :
    ∃ e2, lookupc (updatec m k f) u = some e2 ∧ e2.immutable = e.immutable := by
  rw [lookupc_updatec]
  by_cases hk : k = u
  · refine ⟨f e, ?_, hf e⟩
    rw [if_pos hk, he]
    rfl
  · exact ⟨e, by rw [if_neg hk]; exact he, rfl⟩

lemma download_persist (st : CacheState) (key u : String) (e : CacheEntry)
    (he : lookupc st.cache u = some e) :
    ∃ e2, lookupc (download st key).1.cache u = some e2 ∧ e2.immutable = e.immutable := by
  rcases download_shape st key with ⟨hk, heq⟩ | ⟨e0, j, hk, ht, heq⟩ | ⟨e0, hk, ht, heq⟩
  · rw [heq]
    exact ⟨e, he, rfl⟩
  · rw [heq]
    exact ⟨e, he, rfl⟩
  · rw [heq]
    exact updatec_persist (fun e2 => { e2 with task := some st.nextJob }) he (fun x => rfl)

lemma get_persist (st : CacheState) (uri u : String) (e : CacheEntry)
    (he : lookupc st.cache u = some e) :
    ∃ e2, lookupc (get st uri).1.cache u = some e2 ∧ e2.immutable = e.immutable := by
  rcases get_shape st uri with ⟨hk, heq⟩ | ⟨e0, p, hk, hp, heq⟩ | ⟨e0, hk, hp, heq⟩
  · rw [heq]
    exact ⟨e, he, rfl⟩
  · rw [heq]
    exact ⟨e, he, rfl⟩
  · rw [heq]
    exact download_persist st uri u e he

lemma step_persist (st : CacheState) (c : Cmd) (u : String) (e : CacheEntry)
    (he : lookupc st.cache u = some e) :
    ∃ e2, lookupc (step st c).1.cache u = some e2 ∧ e2.immutable = e.immutable := by
  cases c with
  | onCmd source handler imm =>
    rcases on_shape st source handler imm with ⟨hk, heq⟩ | ⟨e0, hk, heq⟩
    · show ∃ e2, lookupc ((«on» st source handler imm)).1.cache u = some e2 ∧
        e2.immutable = e.immutable
      rw [heq]
      exact get_persist _ _ u e (lookupc_append_some he _ _)
    · show ∃ e2, lookupc ((«on» st source handler imm)).1.cache u = some e2 ∧
        e2.immutable = e.immutable
      rw [heq]
      obtain ⟨e2, he2, hi2⟩ :=
        updatec_persist (fun e3 => { e3 with handlers := e3.handlers ++ [handler] })
          he (fun x => rfl)
      obtain ⟨e3, he3, hi3⟩ := get_persist
        { st with cache := updatec st.cache source.uri (fun e3 => { e3 with handlers := e3.handlers ++ [handler] }) }
        source.uri u e2 he2
      exact ⟨e3, he3, hi3.trans hi2⟩
  | disposeCmd uri handler =>
    rcases dispose_shape st uri handler with ⟨hk, heq⟩ | ⟨e0, hk, heq⟩
    · show ∃ e2, lookupc (dispose st uri handler).1.cache u = some e2 ∧
        e2.immutable = e.immutable
      rw [heq]
      exact ⟨e, he, rfl⟩
    · show ∃ e2, lookupc (dispose st uri handler).1.cache u = some e2 ∧
        e2.immutable = e.immutable
      rw [heq]
      exact updatec_persist
        (fun e3 => { e3 with handlers := spliceGo handler e3.handlers.length e3.handlers 0 })
        he (fun x => rfl)
  | bustCmd uri =>
    rcases bust_shape st uri with ⟨hk, heq⟩ | ⟨e0, hk, hi, heq⟩ | ⟨e0, hk, hi, heq⟩
    · show ∃ e2, lookupc (bust st uri).1.cache u = some e2 ∧ e2.immutable = e.immutable
      rw [heq]
      exact ⟨e, he, rfl⟩
    · show ∃ e2, lookupc (bust st uri).1.cache u = some e2 ∧ e2.immutable = e.immutable
      rw [heq]
      exact ⟨e, he, rfl⟩
    · show ∃ e2, lookupc (bust st uri).1.cache u = some e2 ∧ e2.immutable = e.immutable
      rw [heq]
      obtain ⟨e2, he2, hi2⟩ :=
        updatec_persist (fun e3 => { e3 with path := none }) he (fun x => rfl)
      obtain ⟨e3, he3, hi3⟩ := get_persist
        { st with cache := updatec st.cache uri (fun e3 => { e3 with path := none }) }
        uri u e2 he2
      exact ⟨e3, he3, hi3.trans hi2⟩
  | cancelCmd uri =>
    show ∃ e2, lookupc (cancel st uri).1.cache u = some e2 ∧ e2.immutable = e.immutable
    rw [cancel_fst]
    exact ⟨e, he, rfl⟩
  | fire i r =>
    rcases firePending_shape st i r with ⟨hp, heq⟩ | ⟨key, q, hp, hcase⟩ |
      ⟨key, uri, dest, j, hp, hcase⟩ | ⟨uri, dest, hp, hcase⟩
    · show ∃ e2, lookupc (firePending st i r).1.cache u = some e2 ∧ e2.immutable = e.immutable
      rw [heq]
      exact ⟨e, he, rfl⟩
    · rcases hcase with ⟨hr, heq⟩ | ⟨hr, heq⟩
      · show ∃ e2, lookupc (firePending st i r).1.cache u = some e2 ∧
          e2.immutable = e.immutable
        rw [heq]
        exact ⟨e, he, rfl⟩
      · show ∃ e2, lookupc (firePending st i r).1.cache u = some e2 ∧
          e2.immutable = e.immutable
        rw [heq]
        exact download_persist _ _ u e he
    · rcases hcase with ⟨hr, heq⟩ | ⟨hr, heq⟩
      · show ∃ e2, lookupc (firePending st i r).1.cache u = some e2 ∧
          e2.immutable = e.immutable
        rw [heq]
        exact updatec_persist (fun e3 => { e3 with path := some dest, task := none })
          he (fun x => rfl)
      · show ∃ e2, lookupc (firePending st i r).1.cache u = some e2 ∧
          e2.immutable = e.immutable
        rw [heq]
        exact updatec_persist (fun e3 => { e3 with task := none }) he (fun x => rfl)
    · rcases hcase with ⟨hr, heq⟩ | ⟨hr, heq⟩ <;>
        (show ∃ e2, lookupc (firePending st i r).1.cache u = some e2 ∧
          e2.immutable = e.immutable) <;> rw [heq] <;> exact ⟨e, he, rfl⟩

/-- C4: starting from the reachable-state invariant (which holds in the
    initial state and is preserved by every step), every immutable entry's
    `localPath` holds exactly the deterministic value `immutablePath` of its
    URI both before and after any operation or callback resolution — every
    write of the path (creation, and the re-download after an external
    eviction) stores the identical value, so the path never changes. -/
theorem C4_immutable_path_stable :
    C4Inv initState ∧
    (∀ st c, C4Inv st →
      C4Inv (step st c).1 ∧
      (∀ uri e, lookupc st.cache uri = some e → e.immutable = true →
        pathOf st uri = some (immutablePath uri) ∧
        pathOf (step st c).1 uri = some (immutablePath uri))) := by
  refine ⟨c4Inv_init, ?_⟩
  intro st c h
  refine ⟨step_c4 st c h, ?_⟩
  intro uri e he himm
  obtain ⟨⟨hcc, hcp⟩, hdd, hic, hidd⟩ := h
  constructor
  · unfold pathOf
    rw [he]
    exact hic uri e he himm
  · obtain ⟨e2, he2, hi2⟩ := step_persist st c uri e he
    obtain ⟨⟨hcc2, hcp2⟩, hdd2, hic2, hidd2⟩ := step_c4 st c ⟨⟨hcc, hcp⟩, hdd, hic, hidd⟩
    unfold pathOf
    rw [he2]
    exact hic2 uri e2 he2 (by rw [hi2]; exact himm)

lemma c4Inv_stImm : C4Inv stImm := by
  refine ⟨⟨?_, ?_⟩, ?_, ?_, ?_⟩
  · intro u e he
    rw [show stImm.cache = [("u", eImm)] from rfl, lookupc_singleton] at he
    by_cases hk : "u" = u
    · rw [if_pos hk] at he
      cases he
      rw [← hk]
      rfl
    · rw [if_neg hk] at he
      exact Option.noConfusion he
  · intro p hp
    exact absurd hp (List.not_mem_nil p)
  · intro p hp
    exact absurd hp (List.not_mem_nil p)
  · intro u e he
    rw [show stImm.cache = [("u", eImm)] from rfl, lookupc_singleton] at he
    by_cases hk : "u" = u
    · rw [if_pos hk] at he
      cases he
      intro _
      rw [← hk]
      rfl
    · rw [if_neg hk] at he
      exact Option.noConfusion he
  · intro p hp
    exact absurd hp (List.not_mem_nil p)

/-- C4 (witness): invalidating the concrete immutable entry leaves its path
    at the deterministic value. -/
theorem C4_witness :
    C4Inv (step stImm (Cmd.bustCmd "u")).1 ∧
    (pathOf stImm "u" = some (immutablePath "u") ∧
     pathOf (step stImm (Cmd.bustCmd "u")).1 "u" = some (immutablePath "u")) :=
  ⟨(C4_immutable_path_stable.2 stImm (Cmd.bustCmd "u") c4Inv_stImm).1,
   (C4_immutable_path_stable.2 stImm (Cmd.bustCmd "u") c4Inv_stImm).2 "u" eImm
     (by decide) (by decide)⟩

/-! ## C9: the notification channel -/

lemma notify_no_none (st : CacheState) (uri : String) (e : CacheEntry)
    (he : lookupc st.cache uri = some e) (hps : e.path.isSome = true) :
    ∀ hd, Event.notified hd none ∉ notify st uri := by
  intro hd hmem
  obtain ⟨p, hp2⟩ := Option.isSome_iff_exists.mp hps
  simp [notify, he, hp2] at hmem

lemma download_c9 (st : CacheState) (key : String) (h : C9Inv st) :
    C9Inv (download st key).1 ∧ ∀ hd, Event.notified hd none ∉ (download st key).2 := by
  obtain ⟨⟨hcc, hcp⟩, hex, hpo, hdd⟩ := h
  rcases download_shape st key with ⟨hk, heq⟩ | ⟨e, j, hk, ht, heq⟩ | ⟨e, hk, ht, heq⟩
  · rw [heq]
    exact ⟨⟨⟨hcc, hcp⟩, hex, hpo, hdd⟩, by simp⟩
  · rw [heq]
    exact ⟨⟨⟨hcc, hcp⟩, hex, hpo, hdd⟩, by simp⟩
  · rw [heq]
    have hsrc : e.source.uri = key := hcc key e hk
    refine ⟨⟨⟨?_, ?_⟩, ?_, ?_, ?_⟩, by simp⟩
    · exact coherentCache_updatec (fun e2 => rfl) hcc
    · apply coherentPending_append hcp
      intro key2 uri2 dest2 j2 hpe
      injection hpe with h1 h2 h3 h4
      rw [← h1, ← h2]
      exact hsrc.symm
    · refine psExists_appendPending ?_ ?_
      · exact psExists_cacheUpdate (fun e2 hp2 => hp2) hex
      · exact fun key2 q2 hpe => Pending.noConfusion hpe
    · refine psPost_appendPending ?_ ?_
      · exact psPost_cacheUpdate (fun e2 hp2 => hp2) hpo
      · exact fun uri2 dest2 hpe => Pending.noConfusion hpe
    · refine psdd_appendPending ?_ ?_
      · exact psdd_cacheUpdate hdd
      · intro key2 uri2 dest2 j2 hpe
        injection hpe with h1 h2 h3 h4
        rw [← h1, lookupc_updatec, if_pos rfl, hk]
        exact ⟨_, rfl⟩

lemma get_c9 (st : CacheState) (uri : String) (h : C9Inv st) :
    C9Inv (get st uri).1 ∧ ∀ hd, Event.notified hd none ∉ (get st uri).2 := by
  rcases get_shape st uri with ⟨hk, heq⟩ | ⟨e, p, hk, hp, heq⟩ | ⟨e, hk, hp, heq⟩
  · rw [heq]
    exact ⟨h, by simp⟩
  · rw [heq]
    obtain ⟨⟨hcc, hcp⟩, hex, hpo, hdd⟩ := h
    refine ⟨⟨⟨hcc, ?_⟩, ?_, ?_, ?_⟩, by simp⟩
    · exact coherentPending_append hcp (fun k2 u2 d2 j2 hpe => Pending.noConfusion hpe)
    · refine psExists_appendPending hex ?_
      intro key2 q2 hpe
      injection hpe with h1 h2
      rw [← h1]
      exact ⟨e, hk, by rw [hp]; rfl⟩
    · exact psPost_appendPending hpo (fun u2 d2 hpe => Pending.noConfusion hpe)
    · exact psdd_appendPending hdd (fun k2 u2 d2 j2 hpe => Pending.noConfusion hpe)
  · rw [heq]
    exact download_c9 st uri h

lemma on_c9 (st : CacheState) (source : Source) (handler : Nat) (imm : Option Bool)
    (h : C9Inv st) :
    C9Inv ((«on» st source handler imm)).1 ∧
    ∀ hd, Event.notified hd none ∉ ((«on» st source handler imm)).2 := by
  rcases on_shape st source handler imm with ⟨hk, heq⟩ | ⟨e, hk, heq⟩
  · rw [heq]
    apply get_c9
    obtain ⟨⟨hcc, hcp⟩, hex, hpo, hdd⟩ := h
    exact ⟨⟨coherentCache_append rfl hcc, hcp⟩,
      psExists_cacheAppend hex, psPost_cacheAppend hpo, psdd_cacheAppend hdd⟩
  · rw [heq]
    apply get_c9
    obtain ⟨⟨hcc, hcp⟩, hex, hpo, hdd⟩ := h
    exact ⟨⟨coherentCache_updatec (fun e2 => rfl) hcc, hcp⟩,
      psExists_cacheUpdate (fun e2 hp2 => hp2) hex,
      psPost_cacheUpdate (fun e2 hp2 => hp2) hpo,
      psdd_cacheUpdate hdd⟩

lemma dispose_c9 (st : CacheState) (uri : String) (handler : Nat) (h : C9Inv st) :
    C9Inv (dispose st uri handler).1 ∧
    ∀ hd, Event.notified hd none ∉ (dispose st uri handler).2 := by
  rcases dispose_shape st uri handler with ⟨hk, heq⟩ | ⟨e, hk, heq⟩
  · rw [heq]
    exact ⟨h, by simp⟩
  · rw [heq]
    obtain ⟨⟨hcc, hcp⟩, hex, hpo, hdd⟩ := h
    exact ⟨⟨⟨coherentCache_updatec (fun e2 => rfl) hcc, hcp⟩,
      psExists_cacheUpdate (fun e2 hp2 => hp2) hex,
      psPost_cacheUpdate (fun e2 hp2 => hp2) hpo,
      psdd_cacheUpdate hdd⟩, by simp⟩

lemma cancel_c9 (st : CacheState) (uri : String) (h : C9Inv st) :
    C9Inv (cancel st uri).1 ∧ ∀ hd, Event.notified hd none ∉ (cancel st uri).2 := by
  refine ⟨by rw [cancel_fst]; exact h, ?_⟩
  intro hd hmem
  cases hk : lookupc st.cache uri with
  | none => simp [cancel, hk] at hmem
  | some e =>
    cases ht : e.task with
    | none => simp [cancel, hk, ht] at hmem
    | some j => simp [cancel, hk, ht] at hmem

lemma fire_c9 (st : CacheState) (i : Nat) (r : Bool) (h : C9Inv st) :
    C9Inv (firePending st i r).1 ∧ ∀ hd, Event.notified hd none ∉ (firePending st i r).2 := by
  have herase : C9Inv { st with pending := st.pending.eraseIdx i } := by
    obtain ⟨⟨hcc, hcp⟩, hex, hpo, hdd⟩ := h
    exact ⟨⟨hcc, coherentPending_erase hcp⟩, psExists_erase hex, psPost_erase hpo,
      psdd_erase hdd⟩
  rcases firePending_shape st i r with ⟨hp, heq⟩ | ⟨key, q, hp, hcase⟩ |
    ⟨key, uri, dest, j, hp, hcase⟩ | ⟨uri, dest, hp, hcase⟩
  · rw [heq]
    exact ⟨h, by simp⟩
  · rcases hcase with ⟨hr, heq⟩ | ⟨hr, heq⟩
    · rw [heq]
      refine ⟨herase, ?_⟩
      obtain ⟨⟨hcc, hcp⟩, hex, hpo, hdd⟩ := h
      obtain ⟨e, he, hps⟩ := hex _ (mem_of_idx hp) key q rfl
      exact fun hd => notify_no_none { st with pending := st.pending.eraseIdx i } key e he hps hd
    · rw [heq]
      exact download_c9 _ key herase
  · rcases hcase with ⟨hr, heq⟩ | ⟨hr, heq⟩
    · rw [heq]
      obtain ⟨⟨hcc, hcp⟩, hex, hpo, hdd⟩ := h
      have hmem := mem_of_idx hp
      have hku : key = uri := hcp _ hmem key uri dest j rfl
      obtain ⟨e0, he0⟩ := hdd _ hmem key uri dest j rfl
      refine ⟨⟨⟨?_, ?_⟩, ?_, ?_, ?_⟩, by simp⟩
      · exact coherentCache_updatec (fun e2 => rfl) hcc
      · exact coherentPending_append (coherentPending_erase hcp)
          (fun k2 u2 d2 j2 hpe => Pending.noConfusion hpe)
      · refine psExists_appendPending ?_ ?_
        · exact psExists_cacheUpdate (fun e2 hp2 => rfl) (psExists_erase hex)
        · exact fun k2 q2 hpe => Pending.noConfusion hpe
      · refine psPost_appendPending ?_ ?_
        · exact psPost_cacheUpdate (fun e2 hp2 => rfl) (psPost_erase hpo)
        · intro u2 d2 hpe
          injection hpe with h1 h2
          rw [← h1, ← hku]
          refine ⟨{ e0 with path := some dest, task := none }, ?_, rfl⟩
          rw [lookupc_updatec, if_pos rfl, he0]
          rfl
      · refine psdd_appendPending ?_ ?_
        · exact psdd_cacheUpdate (psdd_erase hdd)
        · exact fun k2 u2 d2 j2 hpe => Pending.noConfusion hpe
    · rw [heq]
      obtain ⟨⟨hcc, hcp⟩, hex, hpo, hdd⟩ := h
      refine ⟨⟨⟨?_, ?_⟩, ?_, ?_, ?_⟩, by simp⟩
      · exact coherentCache_updatec (fun e2 => rfl) hcc
      · exact coherentPending_erase hcp
      · exact psExists_cacheUpdate (fun e2 hp2 => hp2) (psExists_erase hex)
      · exact psPost_cacheUpdate (fun e2 hp2 => hp2) (psPost_erase hpo)
      · exact psdd_cacheUpdate (psdd_erase hdd)
  · rcases hcase with ⟨hr, heq⟩ | ⟨hr, heq⟩
    · rw [heq]
      refine ⟨herase, ?_⟩
      obtain ⟨⟨hcc, hcp⟩, hex, hpo, hdd⟩ := h
      obtain ⟨e, he, hps⟩ := hpo _ (mem_of_idx hp) uri dest rfl
      exact fun hd => notify_no_none { st with pending := st.pending.eraseIdx i } uri e he hps hd
    · rw [heq]
      exact ⟨herase, by simp⟩

lemma step_c9 (st : CacheState) (c : Cmd) (h : C9Inv st) (hc : notBust c = true) :
    C9Inv (step st c).1 ∧ ∀ hd, Event.notified hd none ∉ (step st c).2 := by
  cases c with
  | onCmd s hd2 imm => exact on_c9 st s hd2 imm h
  | disposeCmd u hd2 => exact dispose_c9 st u hd2 h
  | bustCmd u => simp [notBust] at hc
  | cancelCmd u => exact cancel_c9 st u h
  | fire i r => exact fire_c9 st i r h

lemma c9Inv_init : C9Inv initState := by
  refine ⟨⟨?_, ?_⟩, ?_, ?_, ?_⟩
  · intro u e he
    exact Option.noConfusion he
  · intro p hp
    exact absurd hp (List.not_mem_nil p)
  · intro p hp
    exact absurd hp (List.not_mem_nil p)
  · intro p hp
    exact absurd hp (List.not_mem_nil p)
  · intro p hp
    exact absurd hp (List.not_mem_nil p)

lemma run_c9 : ∀ cmds st, C9Inv st → (∀ c ∈ cmds, notBust c = true) →
    ∀ hd, Event.notified hd none ∉ (run st cmds).2 := by
  intro cmds
  induction cmds with
  | nil =>
    intro st h hall hd hmem
    simp [run] at hmem
  | cons c cs ih =>
    intro st h hall hd hmem
    obtain ⟨h1, h2⟩ := step_c9 st c h (hall c (by simp))
    simp only [run, List.mem_append] at hmem
    rcases hmem with hm | hm
    · exact h2 hd hm
    · exact ih (step st c).1 h1 (fun c2 hc2 => hall c2 (by simp [hc2])) hd hm

/-- C9 (amended): the notification channel carries the entry's path as read
    at fan-out time and never an error; in every run from the initial state
    that contains no invalidation (`bust`), every handler invocation carries
    a defined path — but an invalidation interleaved between the scheduling
    of an existence check (or a download success) and the corresponding
    fan-out can clear the path, so a handler can then be invoked with an
    absent value (see the counterexample). -/
theorem C9_amended_no_error_channel :
    ∀ cmds, (∀ c ∈ cmds, notBust c = true) →
      ∀ hd, Event.notified hd none ∉ (run initState cmds).2 := by
  intro cmds hall hd
  exact run_c9 cmds initState c9Inv_init hall hd

/-- C9 (witness): a concrete bust-free run whose notifications are all
    defined. -/
theorem C9_amended_witness : Event.notified 1 none ∉ (run initState plainTrace).2 :=
  C9_amended_no_error_channel plainTrace (by decide) 1

/-- C9 (counterexample): resolve a mutable URI and notify, register a second
    observer (scheduling an existence check on the resolved path), invalidate
    the URI before that check resolves, then let the check report the file
    present — `notify` reads the now-cleared path and invokes both handlers
    with an absent value, contradicting the claim that every invocation
    passes a defined path string. -/
theorem C9_counterexample :
    Event.notified 1 none ∈ (run initState raceTrace).2 ∧
    Event.notified 2 none ∈ (run initState raceTrace).2 := by
  constructor <;> decide

end ImgCache
